import Mathlib

/-!
Shallow embedding of the FamilyTreeDestio layout core (src/main.cpp) and
proofs about it.  The embedding follows the C++ source: the CSV row parser
(DataModel::LoadFromFile), the id-keyed store (DataModel::Get), the
generation relaxation (LayoutEngine::CalculateGenerations), the ownership
claiming pass (AssignOwnership / StartClaiming), the child ordering
(GetChildren), the bottom-up sizing (ComputeSubtreeSize) and the top-down
positioning (PositionSubtree / Recalculate).  C++ `int` values are modelled
as `Int` (no arithmetic here approaches 2^31), `std::map` / `std::set` as
association lists / sorted duplicate-free lists, and in-place mutation as
explicit state passing.  Recursions whose termination is in question in the
source are given a fuel parameter, with fuel exhaustion returning `none`
(modelling non-termination / stack overflow).
-/

namespace FamilyTree

/-! ## Configuration constants (namespace Config in main.cpp) -/

namespace Config

def BOX_WIDTH : Int := 200
def BOX_HEIGHT : Int := 75
def V_GAP : Int := 150
def H_GAP : Int := 50
def SPOUSE_GAP : Int := 25
def TREE_GAP : Int := 0

end Config

/-! ## CSV field splitting

`std::getline(stream, seg, delim)` in a `while` loop: reads segments up to
the delimiter, consuming it; the loop ends when the stream is exhausted
before any character (including the delimiter) is read.  Hence the empty
string yields no segments and a trailing delimiter does not produce a
trailing empty segment. -/

def getlineSplit (delim : Char) : List Char → List (List Char)
  | [] => []
  | c :: rest =>
    if c = delim then [] :: getlineSplit delim rest
    else
      match getlineSplit delim rest with
      | [] => [[c]]
      | seg :: more => (c :: seg) :: more

/-! ## std::stoi semantics

`std::stoi` skips leading whitespace, accepts an optional sign, then
requires at least one decimal digit; extra trailing characters are ignored.
It throws `invalid_argument` when no digit is found and `out_of_range`
when the converted value does not fit in `int` (above `2147483647`, or
below `-2147483648`; `strtol`'s saturation at the `long` limits also ends
in `out_of_range`).  Both callers in LoadFromFile catch with `catch(...)`,
so either throw is modelled as `none` here. -/

def isSpaceCpp (c : Char) : Bool :=
  c = ' ' || c = '\t' || c = '\n' || c = Char.ofNat 11 || c = Char.ofNat 12 || c = '\r'

def isDigitCpp (c : Char) : Bool := '0' ≤ c && c ≤ '9'

def digitsVal (ds : List Char) : Nat :=
  ds.foldl (fun a c => a * 10 + (c.toNat - 48)) 0

def parseDigits (s : List Char) : Option Nat :=
  let ds := s.takeWhile isDigitCpp
  if ds = [] then none else some (digitsVal ds)

def stoiCpp (s : List Char) : Option Int :=
  match s.dropWhile isSpaceCpp with
  | '-' :: rest =>
    (parseDigits rest).bind (fun n => if n ≤ 2147483648 then some (-(n : Int)) else none)
  | '+' :: rest =>
    (parseDigits rest).bind (fun n => if n ≤ 2147483647 then some ((n : Int)) else none)
  | s1 =>
    (parseDigits s1).bind (fun n => if n ≤ 2147483647 then some ((n : Int)) else none)

/-! ## Data model (struct Person, class DataModel) -/

structure Person where
  id : Int
  name : List Char
  role : List Char
  gender : List Char
  fatherId : Int
  motherId : Int
  spouses : List Int
  exSpouses : List Int
  x : Int := -10000
  y : Int := -10000
  gen : Int := 0
deriving Repr, DecidableEq

/-- One spouse token of the pipe-separated spouse field: an optional
trailing `x`/`X` marks a former spouse, the rest goes through `stoi`.
A token that fails to parse is skipped by the inner `catch` in
LoadFromFile; this function returns `none` for it. -/
def parseSpouseTok (tok : List Char) : Option (Int × Bool) :=
  let stripped :=
    match tok.getLast? with
    | some c => if c = 'x' ∨ c = 'X' then (tok.dropLast, true) else (tok, false)
    | none => (tok, false)
  match stoiCpp stripped.1 with
  | some i => some (i, stripped.2)
  | none => none

/-- One iteration of the spouse-field loop of LoadFromFile: a parsed id of
0 is dropped; otherwise the id is appended to `spouses` and, if marked,
inserted into the `exSpouses` set (set insertion: no duplicates). -/
def spouseStep (acc : List Int × List Int) (tok : List Char) : List Int × List Int :=
  match parseSpouseTok tok with
  | some (i, isEx) =>
    if i ≠ 0 then
      (acc.1 ++ [i], if isEx ∧ i ∉ acc.2 then acc.2 ++ [i] else acc.2)
    else acc
  | none => acc

/-- The spouse-field loop of LoadFromFile: tokens are split on `|` and
folded through `spouseStep`. -/
def parseSpouses (field : List Char) : List Int × List Int :=
  (getlineSplit '|' field).foldl spouseStep ([], [])

/-- One data row of LoadFromFile: split on commas; at least 7 fields are
required; fields 0, 4, 5 go through `stoi` and any failure skips the whole
row (the outer `catch` + `continue`); the spouse field is parsed
token-by-token.  No partially constructed Person can escape: the row
either yields a complete record or `none`. -/
def parseLine (line : List Char) : Option Person :=
  let parts := getlineSplit ',' line
  if parts.length ≥ 7 then
    match stoiCpp (parts.getD 0 []), stoiCpp (parts.getD 4 []), stoiCpp (parts.getD 5 []) with
    | some i, some f, some m =>
      let sp := parseSpouses (parts.getD 6 [])
      some { id := i, name := parts.getD 1 [], role := parts.getD 2 [],
             gender := parts.getD 3 [], fatherId := f, motherId := m,
             spouses := sp.1, exSpouses := sp.2 }
    | _, _, _ => none
  else none

/-- A raw text line as handled by the load loop: empty lines are skipped
and a trailing carriage return is stripped before parsing. -/
def parseRawLine (line : List Char) : Option Person :=
  match line with
  | [] => none
  | _ =>
    let body := if line.getLast? = some '\r' then line.dropLast else line
    parseLine body

/-- LoadFromFile, file access and BOM handling aside: the header line is
skipped, every further line is parsed and failed rows are silently
dropped. -/
def loadFromLines (lines : List (List Char)) : List Person :=
  (lines.drop 1).filterMap parseRawLine

/-- String front-end for concrete test rows. -/
def parseLineS (s : String) : Option Person := parseLine s.data

/-- DataModel::Get via idMap: the map is filled in increasing index order,
so for duplicate ids the last record wins. -/
def getById : List Person → Int → Option Person
  | [], _ => none
  | p :: rest, i =>
    match getById rest i with
    | some q => some q
    | none => if p.id = i then some p else none

/-! ## Generation assignment (LayoutEngine::CalculateGenerations)

The relaxation mutates `gen` fields in place over up to 20 passes.  The
state carries a ghost trace `tags` recording, per list index, which rule
assigned that entity's generation (parent rule, spouse inheritance, or the
no-relations root rule); the trace does not influence the computation. -/

inductive GenRule
  | byParent
  | bySpouse
  | byRoot
deriving Repr, DecidableEq

structure GenSt where
  ps : List Person
  tags : List (Nat × GenRule)
  changed : Bool
deriving Repr, DecidableEq

/-- Contribution of one parent id to `pGen`: its generation if the entity
exists and is assigned, else -1 (skipped). -/
def parentContrib (ps : List Person) (pid : Int) : Int :=
  match getById ps pid with
  | some q => if q.gen ≠ -1 then q.gen else -1
  | none => -1

/-- The `pGen` computation of CalculateGenerations: starts at -1 and takes
the max over the assigned known parents. -/
def pGenOf (ps : List Person) (p : Person) : Int :=
  max (-1) (max (parentContrib ps p.fatherId) (parentContrib ps p.motherId))

/-- Spouse inheritance: the first spouse in list order that exists and is
assigned provides the generation. -/
def spouseGen (ps : List Person) : List Int → Option Int
  | [] => none
  | sid :: rest =>
    match getById ps sid with
    | some sp => if sp.gen ≠ -1 then some sp.gen else spouseGen ps rest
    | none => spouseGen ps rest

/-- The body of the relaxation loop for the entity at list index `i`. -/
def genStep (st : GenSt) (i : Nat) : GenSt :=
  match st.ps.get? i with
  | none => st
  | some p =>
    if p.gen ≠ -1 then st
    else
      if pGenOf st.ps p ≠ -1 then
        { ps := st.ps.set i { p with gen := pGenOf st.ps p + 1 },
          tags := (i, GenRule.byParent) :: st.tags, changed := true }
      else
        match spouseGen st.ps p.spouses with
        | some g =>
          { ps := st.ps.set i { p with gen := g },
            tags := (i, GenRule.bySpouse) :: st.tags, changed := true }
        | none =>
          if p.fatherId = 0 ∧ p.motherId = 0 ∧ p.spouses = [] then
            { ps := st.ps.set i { p with gen := 0 },
              tags := (i, GenRule.byRoot) :: st.tags, changed := true }
          else st

/-- One full scan over all entities (`changed` reset at scan start). -/
def genPass (st : GenSt) : GenSt :=
  (List.range st.ps.length).foldl genStep { st with changed := false }

/-- The bounded while loop: runs while the previous scan changed
something, at most `fuel` (= 20) scans in total. -/
def genLoop : Nat → GenSt → GenSt
  | 0, st => st
  | n + 1, st =>
    let st1 := genPass st
    if st1.changed then genLoop n st1 else st1

/-- The final fallback: anything still unassigned is forced to 0. -/
def genFallback (st : GenSt) : GenSt :=
  { st with ps := st.ps.map fun p => if p.gen = -1 then { p with gen := 0 } else p }

/-- LayoutEngine::ResetState. -/
def resetState (ps : List Person) : List Person :=
  ps.map fun p => { p with x := -10000, y := -10000, gen := -1 }

/-- LayoutEngine::CalculateGenerations on an (already reset) store. -/
def calculateGenerations (ps : List Person) : GenSt :=
  genFallback (genLoop 20 { ps := ps, tags := [], changed := true })

/-- The record set exhibiting C3's failure: person 1 has father 2 and
mother 3; 2 and 4 are relation-free roots; 3 is a child of 4.  During the
relaxation, 1 is assigned from father 2 (generation 0) in the same scan in
which mother 3 is still unassigned; 3 later becomes generation 1, so 1's
final generation 1 is not max(0, 1) + 1 = 2. -/
def lateParentModel : List Person :=
  [{ id := 1, name := [], role := [], gender := [], fatherId := 2, motherId := 3,
     spouses := [], exSpouses := [] },
   { id := 2, name := [], role := [], gender := [], fatherId := 0, motherId := 0,
     spouses := [], exSpouses := [] },
   { id := 3, name := [], role := [], gender := [], fatherId := 4, motherId := 0,
     spouses := [], exSpouses := [] },
   { id := 4, name := [], role := [], gender := [], fatherId := 0, motherId := 0,
     spouses := [], exSpouses := [] }]

/-! ## Child collection and ordering (LayoutEngine::GetChildren) -/

/-- std::set<int>::insert on the sorted duplicate-free list model. -/
def insertSet (x : Int) : List Int → List Int
  | [] => [x]
  | y :: ys =>
    if x < y then x :: y :: ys
    else if x = y then y :: ys
    else y :: insertSet x ys

/-- The addKids lambda of GetChildren: ids of all store entries whose
father or mother is `parentId`, in store order. -/
def childIdsOf (ps : List Person) (parentId : Int) : List Int :=
  (ps.filter (fun k => k.fatherId = parentId || k.motherId = parentId)).map (fun k => k.id)

/-- The kidSet of GetChildren: children of the person and of each of its
spouses, collected into a std::set (sorted, duplicate-free). -/
def kidSet (ps : List Person) (p : Person) : List Int :=
  (childIdsOf ps p.id ++ (p.spouses.map (childIdsOf ps)).flatten).foldl
    (fun s k => insertSet k s) []

/-- The spouseIdx std::map of GetChildren: spouse id → its index in the
spouse list; the map is filled in increasing index order, so for a
duplicated spouse id the last (largest) index wins. -/
def lastIdxOf : List Int → Int → Option Nat
  | [], _ => none
  | y :: ys, x =>
    match lastIdxOf ys x with
    | some j => some (j + 1)
    | none => if y = x then some 0 else none

/-- The grouping rank shared by the code's comparator and §4.5 of the
spec: with `numLeft = spouseCount / 2`, a child whose other parent is
unknown (0) or not among the spouses ranks at the centre (`numLeft`); a
child of the `i`-th spouse ranks `i` when `i < numLeft` (left half, in
spouse-list order) and `i + 1` otherwise (right half). -/
def specChildRank (p : Person) (k : Person) : Int :=
  if (if k.fatherId = p.id then k.motherId else k.fatherId) = 0 then
    (p.spouses.length : Int) / 2
  else
    match lastIdxOf p.spouses (if k.fatherId = p.id then k.motherId else k.fatherId) with
    | some idx =>
      if (idx : Int) < (p.spouses.length : Int) / 2 then (idx : Int) else (idx : Int) + 1
    | none => (p.spouses.length : Int) / 2

/-- The GetKey lambda of GetChildren's comparator: 999 for an id that the
store cannot resolve, otherwise the grouping rank of the child. -/
def childKey (ps : List Person) (p : Person) (cid : Int) : Int :=
  match getById ps cid with
  | none => 999
  | some k => specChildRank p k

/-- GetChildren's comparator, as the reflexive total order induced by the
strict `std::sort` comparator `(key, id)` lexicographic: `a ≤ b` iff
`¬ comp(b, a)`. -/
def childLE (ps : List Person) (p : Person) (a b : Int) : Bool :=
  decide (childKey ps p a < childKey ps p b ∨
    (childKey ps p a = childKey ps p b ∧ a ≤ b))

/-- Insertion into a list sorted by `le`. -/
def insertOrd (le : Int → Int → Bool) (x : Int) : List Int → List Int
  | [] => [x]
  | y :: ys => if le x y then x :: y :: ys else y :: insertOrd le x ys

/-- Insertion sort by `le`.  On duplicate-free keys this yields the unique
sorted arrangement, hence agrees with `std::sort` under the corresponding
strict comparator. -/
def sortOrd (le : Int → Int → Bool) (l : List Int) : List Int :=
  l.foldr (insertOrd le) []

/-- LayoutEngine::GetChildren: the kid set sorted for visual centering. -/
def getChildren (ps : List Person) (pid : Int) : List Int :=
  match getById ps pid with
  | none => []
  | some p => sortOrd (childLE ps p) (kidSet ps p)

/-- A model for C8: person 1 with spouses [2, 3] (left half `[2]`, right
half `[3]`) and four children: 10 (mother 2, left group), 11 (mother 3,
right group), 12 (mother unknown, centre), 13 (mother 99 who is not a
spouse, centre). -/
def orderingParent : Person :=
  { id := 1, name := [], role := [], gender := [], fatherId := 0, motherId := 0,
    spouses := [2, 3], exSpouses := [] }

def orderingModel : List Person :=
  [orderingParent,
   { id := 2, name := [], role := [], gender := [], fatherId := 0, motherId := 0,
     spouses := [1], exSpouses := [] },
   { id := 3, name := [], role := [], gender := [], fatherId := 0, motherId := 0,
     spouses := [1], exSpouses := [] },
   { id := 13, name := [], role := [], gender := [], fatherId := 1, motherId := 99,
     spouses := [], exSpouses := [] },
   { id := 11, name := [], role := [], gender := [], fatherId := 1, motherId := 3,
     spouses := [], exSpouses := [] },
   { id := 12, name := [], role := [], gender := [], fatherId := 1, motherId := 0,
     spouses := [], exSpouses := [] },
   { id := 10, name := [], role := [], gender := [], fatherId := 1, motherId := 2,
     spouses := [], exSpouses := [] }]

/-! ## Ownership claiming (LayoutEngine::AssignOwnership / StartClaiming) -/

structure ClaimSt where
  visited : List Int
  owner : List (Int × Int)
deriving Repr, DecidableEq

/-- Read access to the nodeOwner std::map: the most recent write wins
(entries are prepended). -/
def lookupOwner : List (Int × Int) → Int → Option Int
  | [], _ => none
  | e :: rest, k => if e.1 = k then some e.2 else lookupOwner rest k

/-- The claiming inner loops of StartClaiming: offer each id (spouses,
then children); ids not yet visited are marked visited, recorded as owned
by `root` and appended to the queue. -/
def claimOffer (root : Int) : List Int → ClaimSt → List Int → ClaimSt × List Int
  | [], st, q => (st, q)
  | sid :: rest, st, q =>
    if sid ∈ st.visited then claimOffer root rest st q
    else claimOffer root rest
      { visited := sid :: st.visited, owner := (sid, root) :: st.owner } (q ++ [sid])

/-- The BFS while loop of StartClaiming: pop the queue head, resolve it
(an unresolvable id is simply dropped), offer its spouses and then its
children.  `fuel` bounds the number of iterations; every push is paired
with a fresh visited insertion over the finite id universe, so the fuel
chosen in `startClaiming` is never exhausted. -/
def claimLoop (ps : List Person) (root : Int) : Nat → List Int → ClaimSt → ClaimSt
  | 0, _, st => st
  | _ + 1, [], st => st
  | n + 1, currId :: rest, st =>
    match getById ps currId with
    | none => claimLoop ps root n rest st
    | some curr =>
      claimLoop ps root n
        (claimOffer root (getChildren ps currId)
          (claimOffer root curr.spouses st rest).1
          (claimOffer root curr.spouses st rest).2).2
        (claimOffer root (getChildren ps currId)
          (claimOffer root curr.spouses st rest).1
          (claimOffer root curr.spouses st rest).2).1

/-- The finite id universe: every id that can ever be claimed (store ids
and all listed spouse ids). -/
def claimUniverse (ps : List Person) : List Int :=
  (ps.map (fun p => p.id) ++ (ps.map (fun p => p.spouses)).flatten).foldl
    (fun s k => insertSet k s) []

/-- LayoutEngine::StartClaiming: seed the queue, visited set and ownership
with the root, then run the BFS. -/
def startClaiming (ps : List Person) (rootId : Int) (st : ClaimSt) : ClaimSt :=
  claimLoop ps rootId (2 * (claimUniverse ps).length + 2) [rootId]
    { visited := if rootId ∈ st.visited then st.visited else rootId :: st.visited,
      owner := (rootId, rootId) :: st.owner }

/-- The canonical-root test of AssignOwnership (and of Recalculate's root
loop): the entity's id is minimal among itself and its listed spouses,
i.e. no spouse id is smaller. -/
def isCanonicalRoot (p : Person) : Bool :=
  p.spouses.all (fun sid => p.id ≤ sid)

/-- One iteration of AssignOwnership's loop over the store; the second
component is a ghost trace of the roots that initiated claiming. -/
def assignStep (ps : List Person) (acc : ClaimSt × List Int) (p : Person) :
    ClaimSt × List Int :=
  if p.gen = 0 ∧ isCanonicalRoot p = true ∧ p.id ∉ acc.1.visited then
    (startClaiming ps p.id acc.1, acc.2 ++ [p.id])
  else acc

/-- LayoutEngine::AssignOwnership. -/
def assignOwnership (ps : List Person) : ClaimSt × List Int :=
  ps.foldl (assignStep ps) ({ visited := [], owner := [] }, [])

/-- How one claiming run extends the visited/ownership state: visited
grows, entities visited before keep their ownership lookup unchanged
(first claim wins), entities newly visited are owned by `root`, and
ownership entries stay within the visited set. -/
def ClaimExtends (root : Int) (st st' : ClaimSt) : Prop :=
  (∀ id, id ∈ st.visited → id ∈ st'.visited) ∧
  (∀ id, id ∈ st.visited → lookupOwner st'.owner id = lookupOwner st.owner id) ∧
  (∀ id, id ∉ st.visited → id ∈ st'.visited → lookupOwner st'.owner id = some root) ∧
  ((∀ k v, (k, v) ∈ st.owner → k ∈ st.visited) →
    ∀ k v, (k, v) ∈ st'.owner → k ∈ st'.visited)

/-- A record set on which C4's "exactly one" fails: 2 and 3 are mutually
married depth-0 entities, but 2 also lists the absent spouse id 1, so
neither 2 (1 < 2) nor 3 (2 < 3) passes the canonical-root test and no
cluster is initiated at all. -/
def noInitModel : List Person :=
  [{ id := 2, name := [], role := [], gender := [], fatherId := 0, motherId := 0,
     spouses := [3, 1], exSpouses := [] },
   { id := 3, name := [], role := [], gender := [], fatherId := 0, motherId := 0,
     spouses := [2], exSpouses := [] }]

/-- A mutually married depth-0 pair with distinct ids, for the C4
witness: 5 is the larger-id spouse. -/
def c4pairA : Person :=
  { id := 5, name := [], role := [], gender := [], fatherId := 0, motherId := 0,
    spouses := [4], exSpouses := [] }

def c4pairB : Person :=
  { id := 4, name := [], role := [], gender := [], fatherId := 0, motherId := 0,
    spouses := [5], exSpouses := [] }

def c4pair : List Person := [c4pairA, c4pairB]

/-! ## Bottom-up sizing (LayoutEngine::ComputeSubtreeSize)

The subtreeMetrics std::map is an association list of (id, width,
centerOffset), newest entry first; the function carries it as explicit
state.  The C++ recursion has no cycle guard (the memo entry is written
only after the recursive calls return), so the recursion is modelled with
fuel: `none` models both running out of fuel and the null-pointer
dereference on an unresolvable id. -/

def lookupMetrics : List (Int × Int × Int) → Int → Option (Int × Int)
  | [], _ => none
  | e :: rest, k => if e.1 = k then some e.2 else lookupMetrics rest k

/-- The cross-cluster test `nodeOwner.count(pid) && nodeOwner[pid] != rootId`. -/
def ownedByOther (owner : List (Int × Int)) (root pid : Int) : Bool :=
  match lookupOwner owner pid with
  | some r => r ≠ root
  | none => false

/-- Width of the parents row: the entity plus its spouses side by side. -/
def parentsRowWidth (p : Person) : Int :=
  if 0 < p.spouses.length then
    Config.BOX_WIDTH * (1 + (p.spouses.length : Int)) +
      Config.SPOUSE_GAP * (p.spouses.length : Int)
  else Config.BOX_WIDTH

/-- The children loop of ComputeSubtreeSize: run `f` (the recursive call
at the next fuel level) over each child left to right, threading the
metrics map and accumulating the widths. -/
def sizeKidsWith
    (f : Int → List (Int × Int × Int) → Option ((Int × Int) × List (Int × Int × Int))) :
    List Int → List (Int × Int × Int) → Option (Int × List (Int × Int × Int))
  | [], mets => some (0, mets)
  | k :: rest, mets =>
    match f k mets with
    | none => none
    | some v =>
      match sizeKidsWith f rest v.2 with
      | none => none
      | some v2 => some (v.1.1 + v2.1, v2.2)

/-- The children-row width from the accumulated sum: a sibling gap
between consecutive children when there are any children. -/
def kidsWidthOf (ps : List Person) (pid : Int) (kidsSum : Int) : Int :=
  if getChildren ps pid = [] then kidsSum
  else kidsSum + (((getChildren ps pid).length : Int) - 1) * Config.H_GAP

/-- The entity's total footprint width. -/
def totalWidthOf (ps : List Person) (p : Person) (pid : Int) (kidsSum : Int) : Int :=
  max (parentsRowWidth p) (kidsWidthOf ps pid kidsSum)

/-- LayoutEngine::ComputeSubtreeSize. -/
def computeSubtreeSize (ps : List Person) (owner : List (Int × Int)) (root : Int) :
    Nat → Int → List (Int × Int × Int) → Option ((Int × Int) × List (Int × Int × Int))
  | 0, _, _ => none
  | n + 1, pid, mets =>
    if ownedByOther owner root pid = true then some ((0, 0), mets)
    else
      match lookupMetrics mets pid with
      | some wc => some (wc, mets)
      | none =>
        match getById ps pid with
        | none => none
        | some p =>
          match sizeKidsWith (computeSubtreeSize ps owner root n) (getChildren ps pid) mets with
          | none => none
          | some ks =>
            some ((totalWidthOf ps p pid ks.1, totalWidthOf ps p pid ks.1 / 2),
              (pid, totalWidthOf ps p pid ks.1, totalWidthOf ps p pid ks.1 / 2) :: ks.2)

/-- Reachability along child edges, as enumerated by GetChildren. -/
inductive Reaches (ps : List Person) : Int → Int → Prop
  | refl (pid : Int) : Reaches ps pid pid
  | step (pid k q : Int) : k ∈ getChildren ps pid → Reaches ps k q → Reaches ps pid q

/-- The contribution one child makes to its parent's children-row width,
read off the final metrics table: 0 across a cluster boundary, the
recorded width otherwise. -/
def kidContrib (owner : List (Int × Int)) (root : Int)
    (mets : List (Int × Int × Int)) (k : Int) : Int :=
  if ownedByOther owner root k = true then 0
  else
    match lookupMetrics mets k with
    | some wc => wc.1
    | none => 0

/-- The children-row width of an entity as recomputed from the final
metrics table. -/
def kidsRowWidth (ps : List Person) (owner : List (Int × Int)) (root : Int)
    (mets : List (Int × Int × Int)) (pid : Int) : Int :=
  if getChildren ps pid = [] then 0
  else ((getChildren ps pid).map (kidContrib owner root mets)).sum +
    (((getChildren ps pid).length : Int) - 1) * Config.H_GAP

/-- Consistency of a metrics table: every visible entry is for a store
entity, records centerOffset = width / 2 and width = max(parents-row
width, children-row width as read from the table), and has a table entry
for each of its non-cross-cluster children. -/
def MetricsConsistent (ps : List Person) (owner : List (Int × Int)) (root : Int)
    (mets : List (Int × Int × Int)) : Prop :=
  ∀ pid w c, lookupMetrics mets pid = some (w, c) →
    ∃ p, getById ps pid = some p ∧
      c = w / 2 ∧
      w = max (parentsRowWidth p) (kidsRowWidth ps owner root mets pid) ∧
      ∀ k ∈ getChildren ps pid, ownedByOther owner root k = false →
        ∃ wc, lookupMetrics mets k = some wc

/-- Visible metrics entries are never overwritten. -/
def MetricsStable (mets mets' : List (Int × Int × Int)) : Prop :=
  ∀ k v, lookupMetrics mets k = some v → lookupMetrics mets' k = some v

/-- C2's failing input: persons 1 and 2 list each other as father — a
parent cycle.  Both fall back to generation 0; 1 is canonical and claims
both, so neither the cross-cluster short-circuit nor the memo (written
only after the recursion) can stop ComputeSubtreeSize(1) from recursing
1 → 2 → 1 → … forever. -/
def cycModel : List Person :=
  [{ id := 1, name := [], role := [], gender := [], fatherId := 2, motherId := 0,
     spouses := [], exSpouses := [] },
   { id := 2, name := [], role := [], gender := [], fatherId := 1, motherId := 0,
     spouses := [], exSpouses := [] }]

/-- The store after generation assignment on the cyclic model. -/
def cycGenned : List Person := (calculateGenerations (resetState cycModel)).ps

/-- The ownership map the pipeline builds for the cyclic model. -/
def cycOwner : List (Int × Int) := (assignOwnership cycGenned).1.owner

/-- A two-person parent/child model for the C7 witness. -/
def sizingModel : List Person :=
  [{ id := 1, name := [], role := [], gender := [], fatherId := 0, motherId := 0,
     spouses := [], exSpouses := [], gen := 0 },
   { id := 2, name := [], role := [], gender := [], fatherId := 1, motherId := 0,
     spouses := [], exSpouses := [], gen := 1 }]

/-! ## Top-down positioning (LayoutEngine::PositionSubtree)

State: the store (coordinates are mutated in place), the shared `placed`
std::set, the subtreeMetrics map (read through `operator[]`, which
default-inserts (0, 0) for an absent key), and a ghost write log recording
every coordinate assignment with a flag telling whether it was the main
entity write (`p->x = currentX`) or a spouse-row write (`sp->x = …`); the
log does not influence the computation. -/

structure WriteEv where
  wid : Int
  wx : Int
  wy : Int
  main : Bool
deriving Repr, DecidableEq

structure PosSt where
  ps : List Person
  placed : List Int
  mets : List (Int × Int × Int)
  log : List WriteEv
deriving Repr, DecidableEq

/-- std::map operator[]: return the entry, default-inserting (0, 0) when
absent (this mutation is observable by later reads). -/
def metsIndex (mets : List (Int × Int × Int)) (pid : Int) :
    (Int × Int) × List (Int × Int × Int) :=
  match lookupMetrics mets pid with
  | some wc => (wc, mets)
  | none => ((0, 0), (pid, 0, 0) :: mets)

/-- std::set insertion into `placed`. -/
def placedInsert (x : Int) (l : List Int) : List Int :=
  if x ∈ l then l else x :: l

/-- `placed.insert(pid)` followed by inserting every spouse id. -/
def spouseAndSelfPlaced (p : Person) (pid : Int) (placed : List Int) : List Int :=
  p.spouses.foldl (fun l sid => placedInsert sid l) (placedInsert pid placed)

/-- Write (x, y) into the store entry Get would return (the last one with
this id); no-op when the id is absent. -/
def setCoords : List Person → Int → Int → Int → List Person
  | [], _, _, _ => []
  | p :: rest, pid, x, y =>
    if (getById rest pid).isSome then p :: setCoords rest pid x y
    else if p.id = pid then { p with x := x, y := y } :: rest
    else p :: rest

/-- One spouse-row loop (left or right half): position each resolvable
spouse at the cursor and advance; unresolvable spouse ids are skipped
without advancing the cursor.  Every write is logged with `main := false`. -/
def placeSpouses (y : Int) : List Int → List Person → Int → List WriteEv →
    List Person × Int × List WriteEv
  | [], ps, curX, log => (ps, curX, log)
  | sid :: rest, ps, curX, log =>
    match getById ps sid with
    | some _ =>
      placeSpouses y rest (setCoords ps sid curX y)
        (curX + Config.BOX_WIDTH + Config.SPOUSE_GAP)
        (log ++ [{ wid := sid, wx := curX, wy := y, main := false }])
    | none => placeSpouses y rest ps curX log

/-- The parents-row block: left-half spouses, then the main entity (its
write is logged with `main := true`), then right-half spouses. -/
def parentsRowPlace (p : Person) (pid y curX0 : Int) (ps : List Person)
    (log : List WriteEv) : List Person × Int × List WriteEv :=
  placeSpouses y (p.spouses.drop (p.spouses.length / 2))
    (setCoords (placeSpouses y (p.spouses.take (p.spouses.length / 2)) ps curX0 log).1 pid
      (placeSpouses y (p.spouses.take (p.spouses.length / 2)) ps curX0 log).2.1 y)
    ((placeSpouses y (p.spouses.take (p.spouses.length / 2)) ps curX0 log).2.1 +
      Config.BOX_WIDTH + Config.SPOUSE_GAP)
    ((placeSpouses y (p.spouses.take (p.spouses.length / 2)) ps curX0 log).2.2 ++
      [{ wid := pid,
         wx := (placeSpouses y (p.spouses.take (p.spouses.length / 2)) ps curX0 log).2.1,
         wy := y, main := true }])

/-- The `kidsTotalW` loop: sum the children's recorded widths, with
`operator[]` default-inserting (0, 0) for children that have no metric
(cross-cluster children). -/
def kidsMetsSum : List Int → List (Int × Int × Int) → Int × List (Int × Int × Int)
  | [], mets => (0, mets)
  | k :: rest, mets =>
    ((metsIndex mets k).1.1 + (kidsMetsSum rest (metsIndex mets k).2).1,
     (kidsMetsSum rest (metsIndex mets k).2).2)

/-- The children loop: position child `k` at the cursor, then advance the
cursor by `subtreeMetrics[k].first + H_GAP` (re-read after the recursive
call, as the source does). -/
def positionKidsWith (f : Int → Int → Int → PosSt → Option PosSt) :
    List Int → Int → Int → PosSt → Option PosSt
  | [], _, _, st => some st
  | k :: rest, childX, y, st =>
    match f k childX y st with
    | none => none
    | some st1 =>
      positionKidsWith f rest (childX + (metsIndex st1.mets k).1.1 + Config.H_GAP) y
        { st1 with mets := (metsIndex st1.mets k).2 }

/-- The body of PositionSubtree after the early returns: mark self and
spouses placed, read the center offset, lay out the parents row around the
absolute center, then center the children block and recurse. -/
def rowOf (p : Person) (pid x y : Int) (st : PosSt) : List Person × Int × List WriteEv :=
  parentsRowPlace p pid y
    (x + (metsIndex st.mets pid).1.2 - parentsRowWidth p / 2) st.ps st.log

def positionBody (f : Int → Int → Int → PosSt → Option PosSt)
    (pid x y : Int) (st : PosSt) (p : Person) : Option PosSt :=
  if getChildren (rowOf p pid x y st).1 pid = [] then
    some { ps := (rowOf p pid x y st).1, placed := spouseAndSelfPlaced p pid st.placed,
           mets := (metsIndex st.mets pid).2, log := (rowOf p pid x y st).2.2 }
  else
    positionKidsWith f (getChildren (rowOf p pid x y st).1 pid)
      (x + (metsIndex st.mets pid).1.2 -
        ((kidsMetsSum (getChildren (rowOf p pid x y st).1 pid) (metsIndex st.mets pid).2).1 +
          (((getChildren (rowOf p pid x y st).1 pid).length : Int) - 1) * Config.H_GAP) / 2)
      (y + Config.V_GAP)
      { ps := (rowOf p pid x y st).1, placed := spouseAndSelfPlaced p pid st.placed,
        mets := (kidsMetsSum (getChildren (rowOf p pid x y st).1 pid)
          (metsIndex st.mets pid).2).2,
        log := (rowOf p pid x y st).2.2 }

/-- LayoutEngine::PositionSubtree, with fuel (`none` = fuel exhausted or
the C++ null dereference on an unresolvable main id). -/
def positionSubtree (owner : List (Int × Int)) (root : Int) :
    Nat → Int → Int → Int → PosSt → Option PosSt
  | 0, _, _, _, _ => none
  | n + 1, pid, x, y, st =>
    if ownedByOther owner root pid = true then some st
    else if pid ∈ st.placed then some st
    else
      match getById st.ps pid with
      | none => none
      | some p => positionBody (positionSubtree owner root n) pid x y st p

/-- The allotted horizontal spans of a children block: child, anchor,
width; each anchor advances past the previous child's span by exactly the
sibling gap (the cursor rule of the children loop). -/
def childSpans (mets : List (Int × Int × Int)) (start : Int) : List Int → List (Int × Int × Int)
  | [] => []
  | k :: rest =>
    (k, start, (metsIndex mets k).1.1) ::
      childSpans (metsIndex mets k).2 (start + (metsIndex mets k).1.1 + Config.H_GAP) rest

/-- Running the children loop along a precomputed span list. -/
def spansRun (f : Int → Int → Int → PosSt → Option PosSt) :
    List (Int × Int × Int) → Int → PosSt → Option PosSt
  | [], _, st => some st
  | e :: rest, y, st =>
    match f e.1 e.2.1 y st with
    | none => none
    | some st1 => spansRun f rest y { st1 with mets := (metsIndex st1.mets e.1).2 }

/-- How positioning may change the metrics table: existing entries are
untouched and any added entry is a (0, 0) default insert. -/
def MetsZeroExtends (m m' : List (Int × Int × Int)) : Prop :=
  MetricsStable m m' ∧
    ∀ q, lookupMetrics m q = none →
      lookupMetrics m' q = none ∨ lookupMetrics m' q = some (0, 0)

/-- C9's counterexample model: root 1 has children 4 and 5, who are both
married to 3 (and 3 lists both).  Both 4 and 5 are positioned as main
entities under 1, and each writes 3's coordinates in its spouse row — the
second write moves 3 although 3 was already marked placed. -/
def multiSpouseModel : List Person :=
  [{ id := 1, name := [], role := [], gender := [], fatherId := 0, motherId := 0,
     spouses := [], exSpouses := [] },
   { id := 4, name := [], role := [], gender := [], fatherId := 1, motherId := 0,
     spouses := [3], exSpouses := [] },
   { id := 5, name := [], role := [], gender := [], fatherId := 1, motherId := 0,
     spouses := [3], exSpouses := [] },
   { id := 3, name := [], role := [], gender := [], fatherId := 0, motherId := 0,
     spouses := [4, 5], exSpouses := [] }]

/-- The pipeline state for `multiSpouseModel`: generations assigned. -/
def msGenned : List Person := (calculateGenerations (resetState multiSpouseModel)).ps

/-- The pipeline ownership map for `multiSpouseModel` (root 1 owns all). -/
def msOwner : List (Int × Int) := (assignOwnership msGenned).1.owner

/-- The pipeline sizing metrics for `multiSpouseModel`. -/
def msMets : List (Int × Int × Int) :=
  match computeSubtreeSize msGenned msOwner 1 20 1 [] with
  | some r => r.2
  | none => []

/-- The positioning run Recalculate performs for `multiSpouseModel`'s
single root (anchor (50, 50), empty placed set). -/
def msRun : Option PosSt :=
  positionSubtree msOwner 1 20 1 50 50
    { ps := msGenned, placed := [], mets := msMets, log := [] }

/-- The final positioning state of the `multiSpouseModel` run (it succeeds,
so the fallback is never taken). -/
def msFinal : PosSt :=
  match msRun with
  | some st => st
  | none => { ps := [], placed := [], mets := [], log := [] }

/-- Invariant carried through the relaxation: any entity whose generation
was assigned by the parent rule has generation exactly one more than the
generation of one of its known (present-in-store) parents. -/
def TagInv (st : GenSt) : Prop :=
  ∀ i, (i, GenRule.byParent) ∈ st.tags →
    ∃ p q, st.ps.get? i = some p ∧
      (getById st.ps p.fatherId = some q ∨ getById st.ps p.motherId = some q) ∧
      0 ≤ q.gen ∧ p.gen = q.gen + 1

/-! ## Theorems -/

/-- Helper: one spouse-field step keeps 0 out of the spouse list and keeps
the former-spouse set inside the spouse list. -/
theorem spouseStep_inv (acc : List Int × List Int) (tok : List Char)
    (h0 : (0 : Int) ∉ acc.1) (hsub : acc.2 ⊆ acc.1) :
    (0 : Int) ∉ (spouseStep acc tok).1 ∧
      (spouseStep acc tok).2 ⊆ (spouseStep acc tok).1 := by
  unfold spouseStep
  cases parseSpouseTok tok with
  | none => exact ⟨h0, hsub⟩
  | some v =>
    dsimp only
    split_ifs with hi hx
    · refine ⟨?_, ?_⟩
      · intro hmem
        rcases List.mem_append.mp hmem with h | h
        · exact h0 h
        · exact hi (List.mem_singleton.mp h).symm
      · intro a ha
        rcases List.mem_append.mp ha with h | h
        · exact List.mem_append.mpr (Or.inl (hsub h))
        · exact List.mem_append.mpr (Or.inr h)
    · refine ⟨?_, ?_⟩
      · intro hmem
        rcases List.mem_append.mp hmem with h | h
        · exact h0 h
        · exact hi (List.mem_singleton.mp h).symm
      · exact fun a ha => List.mem_append.mpr (Or.inl (hsub ha))
    · exact ⟨h0, hsub⟩

/-- Helper: the spouse-field fold keeps 0 out of the spouse list and keeps
the former-spouse set inside the spouse list. -/
theorem spouseFold_inv (toks : List (List Char)) (acc : List Int × List Int)
    (h0 : (0 : Int) ∉ acc.1) (hsub : acc.2 ⊆ acc.1) :
    (0 : Int) ∉ (toks.foldl spouseStep acc).1 ∧
      (toks.foldl spouseStep acc).2 ⊆ (toks.foldl spouseStep acc).1 := by
  induction toks generalizing acc with
  | nil => exact ⟨h0, hsub⟩
  | cons tok rest ih =>
    simp only [List.foldl_cons]
    have hstep := spouseStep_inv acc tok h0 hsub
    exact ih (spouseStep acc tok) hstep.1 hstep.2

/-- Helper: every person produced by `parseLine` draws its spouse fields
from `parseSpouses`, hence 0 is excluded and former spouses are a subset
of the spouse list. -/
theorem parseLine_spouse_inv (line : List Char) (p : Person)
    (h : parseLine line = some p) :
    (0 : Int) ∉ p.spouses ∧ p.exSpouses ⊆ p.spouses := by
  unfold parseLine at h
  by_cases hlen : (getlineSplit ',' line).length ≥ 7
  · rw [if_pos hlen] at h
    cases h0 : stoiCpp ((getlineSplit ',' line).getD 0 []) with
    | none => rw [h0] at h; cases h
    | some i =>
      cases h4 : stoiCpp ((getlineSplit ',' line).getD 4 []) with
      | none => rw [h0, h4] at h; cases h
      | some f =>
        cases h5 : stoiCpp ((getlineSplit ',' line).getD 5 []) with
        | none => rw [h0, h4, h5] at h; cases h
        | some m =>
          rw [h0, h4, h5] at h
          simp only [Option.some.injEq] at h
          have hinv := spouseFold_inv (getlineSplit '|' ((getlineSplit ',' line).getD 6 []))
            ([], []) (by simp) (by simp)
          rw [← h]
          exact hinv
  · rw [if_neg hlen] at h
    cases h

/-- C10, as stated, is false: the loader never checks a spouse id against
the row's own id, so an entity can list itself as a spouse.  Loading the
single data row `1,A,R,Male,0,0,1|0` yields a store whose only entity has
id 1 and spouse list `[1]`. -/
theorem c10_self_spouse_counterexample :
    ∃ p ∈ loadFromLines ["id,name,role,gender,father,mother,spouses".data,
      "1,A,R,Male,0,0,1|0".data], p.id ∈ p.spouses := by decide

/-- C10 (amended): for every entity present in the store after loading,
the spouse identifier list contains no 0, and every identifier marked as a
former spouse also appears in the spouse identifier list.  (Exclusion of
the entity's own identifier does not hold; see the counterexample.) -/
theorem c10_spouse_invariants (lines : List (List Char)) (p : Person)
    (hp : p ∈ loadFromLines lines) :
    (0 : Int) ∉ p.spouses ∧ p.exSpouses ⊆ p.spouses := by
  unfold loadFromLines at hp
  rcases List.mem_filterMap.mp hp with ⟨line, _, hparse⟩
  unfold parseRawLine at hparse
  cases line with
  | nil => cases hparse
  | cons c rest =>
    exact parseLine_spouse_inv _ _ hparse

/-- Witness for `c10_spouse_invariants` at a concrete loaded store. -/
theorem c10_spouse_invariants_witness :
    (0 : Int) ∉ ([2, 3] : List Int) ∧ ([2] : List Int) ⊆ [2, 3] := by
  have h := c10_spouse_invariants
    ["id,name,role,gender,father,mother,spouses".data, "1,A,R,Male,0,0,2x|3".data]
    { id := 1, name := ['A'], role := ['R'], gender := "Male".data,
      fatherId := 0, motherId := 0, spouses := [2, 3], exSpouses := [2] }
    (by decide)
  exact h

/-- C6, as stated, is false: a malformed spouse token does not cause the
row to be skipped — the inner catch skips only that token and the entity
is still created.  Loading the single data row `1,A,R,Male,0,0,zz`
(malformed spouse token `zz`) produces an entity with id 1 (and an empty
spouse list) in the store.  By contrast a field that `std::stoi` rejects
does skip the whole row, also when the rejection is `out_of_range` rather
than non-numeric: the row with identifier `3000000000` (> INT_MAX) loads
to an empty store. -/
theorem c6_spouse_token_counterexample :
    (loadFromLines ["id,name,role,gender,father,mother,spouses".data,
      "1,A,R,Male,0,0,zz".data]).map (fun p => (p.id, p.spouses))
      = [(1, [])] ∧
    loadFromLines ["id,name,role,gender,father,mother,spouses".data,
      "3000000000,A,R,Male,0,0,0".data] = [] := by decide

/-- C6 (amended): a data row is skipped exactly when it has fewer than 7
comma-separated fields or when `std::stoi` rejects its identifier, father
or mother field — the field has no leading digits after optional
whitespace and sign (`invalid_argument`), or its value does not fit in a
32-bit `int` (`out_of_range`); in that case no entity for the row appears
in the store (no partial entity exists) and loading continues with the
remaining rows.  A malformed spouse token is skipped individually, the
row itself is kept. -/
theorem c6_row_skip_characterization (line : List Char) :
    parseLine line = none ↔
      ((getlineSplit ',' line).length < 7 ∨
       stoiCpp ((getlineSplit ',' line).getD 0 []) = none ∨
       stoiCpp ((getlineSplit ',' line).getD 4 []) = none ∨
       stoiCpp ((getlineSplit ',' line).getD 5 []) = none) := by
  unfold parseLine
  by_cases hlen : (getlineSplit ',' line).length ≥ 7
  · rw [if_pos hlen]
    cases h0 : stoiCpp ((getlineSplit ',' line).getD 0 []) with
    | none => simp [h0]
    | some i =>
      cases h4 : stoiCpp ((getlineSplit ',' line).getD 4 []) with
      | none => simp [h4]
      | some f =>
        cases h5 : stoiCpp ((getlineSplit ',' line).getD 5 []) with
        | none => simp [h5]
        | some m =>
          simp only [Option.some_ne_none, false_iff]
          push_neg
          exact ⟨by omega, by simp [h0], by simp [h4], by simp [h5]⟩
  · rw [if_neg hlen]
    simp only [true_iff, eq_self_iff_true]
    exact Or.inl (by omega)

/-- Helper: a lookup hit names a member of the store. -/
theorem getById_mem (ps : List Person) (pid : Int) (q : Person)
    (h : getById ps pid = some q) : q ∈ ps := by
  induction ps with
  | nil => cases h
  | cons p rest ih =>
    unfold getById at h
    cases hr : getById rest pid with
    | some r =>
      rw [hr] at h
      exact List.mem_cons_of_mem _ (ih (by rw [hr, ← h]))
    | none =>
      rw [hr] at h
      by_cases hid : p.id = pid
      · rw [if_pos hid] at h
        rw [← Option.some.inj h]
        exact List.mem_cons_self _ _
      · rw [if_neg hid] at h
        cases h

/-- Helper: overwriting index `i` (keeping the id) either leaves every
lookup unchanged or redirects exactly the lookups that used to answer with
the old record at `i`. -/
theorem getById_set_preserve (ps : List Person) (i : Nat) (pOld pNew : Person)
    (hget : ps.get? i = some pOld) (hid : pNew.id = pOld.id) (pid : Int) :
    getById (ps.set i pNew) pid = getById ps pid ∨
      (getById ps pid = some pOld ∧ getById (ps.set i pNew) pid = some pNew) := by
  induction ps generalizing i with
  | nil => cases hget
  | cons p rest ih =>
    cases i with
    | zero =>
      have hp : p = pOld := by
        simpa using hget
      subst hp
      simp only [List.set_cons_zero]
      unfold getById
      cases hr : getById rest pid with
      | some r => exact Or.inl rfl
      | none =>
        by_cases hmatch : p.id = pid
        · rw [if_pos hmatch, if_pos (by rw [hid]; exact hmatch)]
          exact Or.inr ⟨rfl, rfl⟩
        · rw [if_neg hmatch, if_neg (by rw [hid]; exact hmatch)]
          exact Or.inl rfl
    | succ j =>
      have hgetr : rest.get? j = some pOld := by simpa using hget
      simp only [List.set_cons_succ]
      unfold getById
      rcases ih j hgetr with hsame | ⟨hold, hnew⟩
      · rw [hsame]
        exact Or.inl rfl
      · rw [hold, hnew]
        exact Or.inr ⟨rfl, rfl⟩

/-- Helper: mapping an id-preserving function through the store commutes
with lookup. -/
theorem getById_map_of_id (ps : List Person) (f : Person → Person)
    (hf : ∀ p, (f p).id = p.id) (pid : Int) :
    getById (ps.map f) pid = (getById ps pid).map f := by
  induction ps with
  | nil => rfl
  | cons p rest ih =>
    simp only [List.map_cons]
    unfold getById
    rw [ih]
    cases hr : getById rest pid with
    | some r => rfl
    | none =>
      simp only [Option.map_none]
      rw [hf p]
      by_cases hmatch : p.id = pid
      · rw [if_pos hmatch, if_pos hmatch]
        rfl
      · rw [if_neg hmatch, if_neg hmatch]
        rfl

/-- Helper: a non-(-1) parent contribution is the generation of an actual
store entry. -/
theorem parentContrib_achieved (ps : List Person) (pid : Int)
    (h : parentContrib ps pid ≠ -1) :
    ∃ q, getById ps pid = some q ∧ q.gen = parentContrib ps pid := by
  cases hq : getById ps pid with
  | none =>
    exfalso
    apply h
    simp only [parentContrib, hq]
  | some q =>
    refine ⟨q, rfl, ?_⟩
    simp only [parentContrib, hq] at h ⊢
    by_cases hg : q.gen ≠ -1
    · rw [if_pos hg]
    · rw [if_neg hg] at h
      exact absurd rfl h

/-- Helper: a non-(-1) `pGen` is achieved by a known, assigned parent, and
is non-negative. -/
theorem pGenOf_achieved (ps : List Person) (p : Person) (h : pGenOf ps p ≠ -1) :
    0 ≤ pGenOf ps p ∧
      ∃ q, (getById ps p.fatherId = some q ∨ getById ps p.motherId = some q) ∧
        q.gen = pGenOf ps p := by
  have hge : (-1 : Int) ≤ pGenOf ps p := le_max_left _ _
  have hpos : 0 ≤ pGenOf ps p := by
    rcases lt_or_eq_of_le hge with hlt | heq
    · omega
    · exact absurd heq.symm h
  refine ⟨hpos, ?_⟩
  have hinner : pGenOf ps p = max (parentContrib ps p.fatherId) (parentContrib ps p.motherId) := by
    unfold pGenOf
    rcases max_choice (-1 : Int)
      (max (parentContrib ps p.fatherId) (parentContrib ps p.motherId)) with h1 | h1
    · exact absurd (by unfold pGenOf at h; rw [h1] at h; exact h) (by simp)
    · exact h1
  rcases max_choice (parentContrib ps p.fatherId) (parentContrib ps p.motherId) with h2 | h2
  · have hc : parentContrib ps p.fatherId = pGenOf ps p := by rw [hinner, h2]
    rcases parentContrib_achieved ps p.fatherId (by rw [hc]; omega) with ⟨q, hq, hqg⟩
    exact ⟨q, Or.inl hq, by rw [hqg, hc]⟩
  · have hc : parentContrib ps p.motherId = pGenOf ps p := by rw [hinner, h2]
    rcases parentContrib_achieved ps p.motherId (by rw [hc]; omega) with ⟨q, hq, hqg⟩
    exact ⟨q, Or.inr hq, by rw [hqg, hc]⟩

/-- Helper: old byParent facts survive an in-place generation assignment
to a previously unassigned entity. -/
theorem tagInv_old_tag (st : GenSt) (i : Nat) (p pNew : Person)
    (hp : st.ps.get? i = some p) (hgen : p.gen = -1) (hid : pNew.id = p.id)
    (h : TagInv st) (j : Nat) (hj : (j, GenRule.byParent) ∈ st.tags) :
    ∃ pj qj, (st.ps.set i pNew).get? j = some pj ∧
      (getById (st.ps.set i pNew) pj.fatherId = some qj ∨
       getById (st.ps.set i pNew) pj.motherId = some qj) ∧
      0 ≤ qj.gen ∧ pj.gen = qj.gen + 1 := by
  rcases h j hj with ⟨pj, qj, hj1, hj2, hj3, hj4⟩
  have hji : i ≠ j := by
    intro heq
    subst heq
    rw [hp] at hj1
    have hpj : p = pj := Option.some.inj hj1
    rw [← hpj] at hj4
    omega
  refine ⟨pj, qj, ?_, ?_, hj3, hj4⟩
  · rw [List.get?_set, if_neg hji]
    exact hj1
  · rcases hj2 with h2 | h2
    · rcases getById_set_preserve st.ps i p pNew hp hid pj.fatherId with hs | ⟨hold, _⟩
      · left
        rw [hs]
        exact h2
      · exfalso
        rw [h2] at hold
        have hqp : qj = p := Option.some.inj hold
        rw [hqp] at hj3
        omega
    · rcases getById_set_preserve st.ps i p pNew hp hid pj.motherId with hs | ⟨hold, _⟩
      · right
        rw [hs]
        exact h2
      · exfalso
        rw [h2] at hold
        have hqp : qj = p := Option.some.inj hold
        rw [hqp] at hj3
        omega

/-- Helper: one relaxation step preserves the byParent invariant. -/
theorem genStep_tagInv (st : GenSt) (i : Nat) (h : TagInv st) :
    TagInv (genStep st i) := by
  unfold genStep
  split
  · exact h
  next p hp =>
    split
    · exact h
    next hg =>
      have hgen : p.gen = -1 := by push_neg at hg; exact hg
      split
      next hpg =>
        intro j hj
        rcases List.mem_cons.mp hj with hhead | htail
        · have hji : j = i := (Prod.ext_iff.mp hhead).1
          subst hji
          rcases pGenOf_achieved st.ps p hpg with ⟨hpos, q, hq, hqgen⟩
          refine ⟨{ p with gen := pGenOf st.ps p + 1 }, q, ?_, ?_, ?_, ?_⟩
          · show (st.ps.set j _).get? j = _
            rw [List.get?_set, if_pos rfl, hp]
            rfl
          · rcases hq with hqf | hqm
            · left
              rcases getById_set_preserve st.ps j p { p with gen := pGenOf st.ps p + 1 }
                  hp rfl p.fatherId with hs | ⟨hold, _⟩
              · show getById _ _ = _
                rw [hs]
                exact hqf
              · exfalso
                rw [hqf] at hold
                have hqp : q = p := Option.some.inj hold
                rw [hqp, hgen] at hqgen
                omega
            · right
              rcases getById_set_preserve st.ps j p { p with gen := pGenOf st.ps p + 1 }
                  hp rfl p.motherId with hs | ⟨hold, _⟩
              · show getById _ _ = _
                rw [hs]
                exact hqm
              · exfalso
                rw [hqm] at hold
                have hqp : q = p := Option.some.inj hold
                rw [hqp, hgen] at hqgen
                omega
          · rw [hqgen]
            exact hpos
          · show pGenOf st.ps p + 1 = q.gen + 1
            rw [hqgen]
        · exact tagInv_old_tag st i p { p with gen := pGenOf st.ps p + 1 } hp hgen rfl h j htail
      next hpg =>
        split
        next g hsp =>
          intro j hj
          rcases List.mem_cons.mp hj with hhead | htail
          · exact absurd (Prod.ext_iff.mp hhead).2 (by simp)
          · exact tagInv_old_tag st i p { p with gen := g } hp hgen rfl h j htail
        next hsp =>
          split
          next hroot =>
            intro j hj
            rcases List.mem_cons.mp hj with hhead | htail
            · exact absurd (Prod.ext_iff.mp hhead).2 (by simp)
            · exact tagInv_old_tag st i p { p with gen := 0 } hp hgen rfl h j htail
          next hroot => exact h

/-- Helper: folding relaxation steps preserves the byParent invariant. -/
theorem foldl_genStep_tagInv (l : List Nat) (st : GenSt) (h : TagInv st) :
    TagInv (l.foldl genStep st) := by
  induction l generalizing st with
  | nil => exact h
  | cons a t ih => exact ih _ (genStep_tagInv st a h)

/-- Helper: a full scan preserves the byParent invariant. -/
theorem genPass_tagInv (st : GenSt) (h : TagInv st) : TagInv (genPass st) := by
  unfold genPass
  exact foldl_genStep_tagInv _ _ (fun j hj => h j hj)

/-- Helper: the bounded relaxation loop preserves the byParent invariant. -/
theorem genLoop_tagInv (n : Nat) (st : GenSt) (h : TagInv st) :
    TagInv (genLoop n st) := by
  induction n generalizing st with
  | zero => exact h
  | succ n ih =>
    unfold genLoop
    dsimp only
    split
    · exact ih _ (genPass_tagInv st h)
    · exact genPass_tagInv st h

/-- Helper: the final forced-to-0 fallback preserves the byParent
invariant (it rewrites only still-unassigned entities). -/
theorem genFallback_tagInv (st : GenSt) (h : TagInv st) :
    TagInv (genFallback st) := by
  intro j hj
  rcases h j hj with ⟨pj, qj, h1, h2, h3, h4⟩
  have hf : ∀ p : Person,
      ((fun p => if p.gen = -1 then { p with gen := 0 } else p) p).id = p.id := by
    intro p
    by_cases hg : p.gen = -1 <;> simp [hg]
  refine ⟨pj, qj, ?_, ?_, h3, h4⟩
  · show (st.ps.map _).get? j = some pj
    rw [List.get?_map, h1]
    show some (if pj.gen = -1 then { pj with gen := 0 } else pj) = some pj
    rw [if_neg (by omega)]
  · have hmap := getById_map_of_id st.ps
      (fun p => if p.gen = -1 then { p with gen := 0 } else p) hf
    rcases h2 with h2 | h2
    · left
      show getById (st.ps.map _) pj.fatherId = some qj
      rw [hmap, h2]
      show some (if qj.gen = -1 then { qj with gen := 0 } else qj) = some qj
      rw [if_neg (by omega)]
    · right
      show getById (st.ps.map _) pj.motherId = some qj
      rw [hmap, h2]
      show some (if qj.gen = -1 then { qj with gen := 0 } else qj) = some qj
      rw [if_neg (by omega)]

/-- C3, as stated, is false: `lateParentModel` person 1 has both parents
(ids 2 and 3) in the store, with final generations 0 and 1, yet its own
generation is 1, not max(0, 1) + 1 = 2 — the relaxation fixed person 1's
generation from father 2 before mother 3 was assigned and never revisits
assigned entities. -/
theorem c3_late_parent_counterexample :
    ((getById (calculateGenerations (resetState lateParentModel)).ps 1).map
        (fun p => (p.fatherId, p.motherId, p.gen)) = some (2, 3, 1)) ∧
    ((getById (calculateGenerations (resetState lateParentModel)).ps 2).map
        (fun p => p.gen) = some 0) ∧
    ((getById (calculateGenerations (resetState lateParentModel)).ps 3).map
        (fun p => p.gen) = some 1) ∧
    (1 : Int) ≠ max 0 1 + 1 := by decide

/-- C3 (amended): after the generation pass, every entity whose
generation was assigned by the parent rule has generation equal to one
plus the generation of one of its known parents (the maximal one among
those already assigned at assignment time); equality with the final
maximum over all known parents can fail. -/
theorem c3_generation_parent_rule (ps0 : List Person) (i : Nat)
    (hi : (i, GenRule.byParent) ∈ (calculateGenerations ps0).tags) :
    ∃ p q, (calculateGenerations ps0).ps.get? i = some p ∧
      (getById (calculateGenerations ps0).ps p.fatherId = some q ∨
       getById (calculateGenerations ps0).ps p.motherId = some q) ∧
      0 ≤ q.gen ∧ p.gen = q.gen + 1 := by
  have h0 : TagInv { ps := ps0, tags := [], changed := true } := by
    intro j hj
    cases hj
  exact genFallback_tagInv _ (genLoop_tagInv 20 _ h0) i hi

/-- Witness for `c3_generation_parent_rule` at list index 0 of the
concrete model (person 1, assigned by the parent rule). -/
theorem c3_generation_parent_rule_witness :
    ∃ p q, (calculateGenerations (resetState lateParentModel)).ps.get? 0 = some p ∧
      (getById (calculateGenerations (resetState lateParentModel)).ps p.fatherId = some q ∨
       getById (calculateGenerations (resetState lateParentModel)).ps p.motherId = some q) ∧
      0 ≤ q.gen ∧ p.gen = q.gen + 1 :=
  c3_generation_parent_rule (resetState lateParentModel) 0 (by decide)

/-- Helper: membership in an ordered insertion. -/
theorem mem_insertOrd (le : Int → Int → Bool) (x z : Int) (l : List Int) :
    z ∈ insertOrd le x l ↔ z = x ∨ z ∈ l := by
  induction l with
  | nil => simp [insertOrd]
  | cons y ys ih =>
    unfold insertOrd
    by_cases h : le x y = true
    · rw [if_pos h]
      simp [List.mem_cons]
    · rw [if_neg h]
      simp only [List.mem_cons, ih]
      tauto

/-- Helper: ordered insertion preserves sortedness for a total transitive
comparator. -/
theorem pairwise_insertOrd (le : Int → Int → Bool)
    (htot : ∀ a b, le a b = true ∨ le b a = true)
    (htrans : ∀ a b c, le a b = true → le b c = true → le a c = true)
    (x : Int) (l : List Int)
    (h : List.Pairwise (fun a b => le a b = true) l) :
    List.Pairwise (fun a b => le a b = true) (insertOrd le x l) := by
  induction l with
  | nil => simp [insertOrd]
  | cons y ys ih =>
    unfold insertOrd
    rcases List.pairwise_cons.mp h with ⟨hy, hys⟩
    by_cases hxy : le x y = true
    · rw [if_pos hxy]
      refine List.pairwise_cons.mpr ⟨?_, h⟩
      intro z hz
      rcases List.mem_cons.mp hz with rfl | hz'
      · exact hxy
      · exact htrans x y z hxy (hy z hz')
    · rw [if_neg hxy]
      refine List.pairwise_cons.mpr ⟨?_, ih hys⟩
      intro z hz
      rcases (mem_insertOrd le x z ys).mp hz with heq | hz'
      · rw [heq]
        exact (htot x y).resolve_left hxy
      · exact hy z hz'

/-- Helper: insertion sort sorts, for a total transitive comparator. -/
theorem pairwise_sortOrd (le : Int → Int → Bool)
    (htot : ∀ a b, le a b = true ∨ le b a = true)
    (htrans : ∀ a b c, le a b = true → le b c = true → le a c = true)
    (l : List Int) :
    List.Pairwise (fun a b => le a b = true) (sortOrd le l) := by
  induction l with
  | nil => simp [sortOrd]
  | cons x xs ih => exact pairwise_insertOrd le htot htrans x _ ih

/-- Helper: insertion sort preserves membership. -/
theorem mem_sortOrd (le : Int → Int → Bool) (l : List Int) (z : Int) :
    z ∈ sortOrd le l ↔ z ∈ l := by
  induction l with
  | nil => simp [sortOrd]
  | cons x xs ih =>
    show z ∈ insertOrd le x (sortOrd le xs) ↔ _
    rw [mem_insertOrd, ih]
    simp [List.mem_cons]

/-- Helper: membership in a std::set insertion. -/
theorem mem_insertSet (x z : Int) (l : List Int) :
    z ∈ insertSet x l ↔ z = x ∨ z ∈ l := by
  induction l with
  | nil => simp [insertSet]
  | cons y ys ih =>
    unfold insertSet
    by_cases h1 : x < y
    · rw [if_pos h1]
      simp [List.mem_cons]
    · rw [if_neg h1]
      by_cases h2 : x = y
      · rw [if_pos h2]
        subst h2
        simp [List.mem_cons]
      · rw [if_neg h2]
        simp only [List.mem_cons, ih]
        tauto

/-- Helper: membership after folding std::set insertions. -/
theorem mem_foldl_insertSet (l acc : List Int) (z : Int) :
    z ∈ l.foldl (fun s k => insertSet k s) acc ↔ z ∈ acc ∨ z ∈ l := by
  induction l generalizing acc with
  | nil => simp
  | cons x xs ih =>
    simp only [List.foldl_cons]
    rw [ih, mem_insertSet]
    simp [List.mem_cons]
    tauto

/-- Helper: a lookup by an id that some store entry carries succeeds. -/
theorem getById_of_exists (ps : List Person) (cid : Int)
    (h : ∃ k ∈ ps, k.id = cid) : ∃ q, getById ps cid = some q := by
  induction ps with
  | nil =>
    rcases h with ⟨k, hk, _⟩
    cases hk
  | cons p rest ih =>
    unfold getById
    cases hr : getById rest cid with
    | some q => exact ⟨q, rfl⟩
    | none =>
      rcases h with ⟨k, hk, hid⟩
      rcases List.mem_cons.mp hk with rfl | hk'
      · rw [if_pos hid]
        exact ⟨k, rfl⟩
      · rcases ih ⟨k, hk', hid⟩ with ⟨q, hq⟩
        rw [hq] at hr
        cases hr

/-- Helper: every member of the kid set is the id of a store entry. -/
theorem kidSet_mem_store (ps : List Person) (p : Person) (cid : Int)
    (h : cid ∈ kidSet ps p) : ∃ k ∈ ps, k.id = cid := by
  unfold kidSet at h
  rcases (mem_foldl_insertSet _ _ _).mp h with h0 | h1
  · cases h0
  · rcases List.mem_append.mp h1 with h2 | h2
    · unfold childIdsOf at h2
      rcases List.mem_map.mp h2 with ⟨k, hk, hkid⟩
      exact ⟨k, (List.mem_filter.mp hk).1, hkid⟩
    · rcases List.mem_flatten.mp h2 with ⟨sub, hsub, hz⟩
      rcases List.mem_map.mp hsub with ⟨sid, _, hsid⟩
      rw [← hsid] at hz
      unfold childIdsOf at hz
      rcases List.mem_map.mp hz with ⟨k, hk, hkid⟩
      exact ⟨k, (List.mem_filter.mp hk).1, hkid⟩

/-- Helper: the comparator key of a resolvable id is its grouping rank. -/
theorem childKey_resolved (ps : List Person) (p : Person) (cid : Int) (k : Person)
    (h : getById ps cid = some k) : childKey ps p cid = specChildRank p k := by
  simp [childKey, h]

/-- C8 (confirmed): the child sequence produced for sizing and positioning
resolves every child in the store, contains exactly the collected kid set,
and is ordered by the §4.5 grouping: ascending grouping rank (left-half
spouse children by spouse index, then centre children with unknown or
unrecognized other parent at rank spouseCount/2, then right-half spouse
children at index + 1), with ties broken by ascending identifier. -/
theorem c8_children_grouped_ordered (ps : List Person) (pid : Int) (p : Person)
    (hp : getById ps pid = some p) :
    (∀ cid ∈ getChildren ps pid, ∃ k, getById ps cid = some k) ∧
    (∀ cid, cid ∈ getChildren ps pid ↔ cid ∈ kidSet ps p) ∧
    List.Pairwise (fun a b => ∀ ka kb,
      getById ps a = some ka → getById ps b = some kb →
      specChildRank p ka < specChildRank p kb ∨
        (specChildRank p ka = specChildRank p kb ∧ a ≤ b))
      (getChildren ps pid) := by
  have hgc : getChildren ps pid = sortOrd (childLE ps p) (kidSet ps p) := by
    simp [getChildren, hp]
  have htot : ∀ a b, childLE ps p a b = true ∨ childLE ps p b a = true := by
    intro a b
    unfold childLE
    rcases lt_trichotomy (childKey ps p a) (childKey ps p b) with h | h | h
    · exact Or.inl (decide_eq_true (Or.inl h))
    · rcases le_total a b with hab | hab
      · exact Or.inl (decide_eq_true (Or.inr ⟨h, hab⟩))
      · exact Or.inr (decide_eq_true (Or.inr ⟨h.symm, hab⟩))
    · exact Or.inr (decide_eq_true (Or.inl h))
  have htrans : ∀ a b c, childLE ps p a b = true → childLE ps p b c = true →
      childLE ps p a c = true := by
    intro a b c hab hbc
    have h1 := of_decide_eq_true hab
    have h2 := of_decide_eq_true hbc
    apply decide_eq_true
    rcases h1 with h1 | ⟨h1, h1b⟩ <;> rcases h2 with h2 | ⟨h2, h2b⟩
    · exact Or.inl (lt_trans h1 h2)
    · exact Or.inl (h2 ▸ h1)
    · exact Or.inl (h1 ▸ h2)
    · exact Or.inr ⟨h1.trans h2, le_trans h1b h2b⟩
  refine ⟨?_, ?_, ?_⟩
  · intro cid hcid
    rw [hgc] at hcid
    exact getById_of_exists ps cid
      (kidSet_mem_store ps p cid ((mem_sortOrd _ _ _).mp hcid))
  · intro cid
    rw [hgc]
    exact mem_sortOrd _ _ _
  · rw [hgc]
    refine List.Pairwise.imp ?_ (pairwise_sortOrd (childLE ps p) htot htrans (kidSet ps p))
    intro a b hab ka kb hka hkb
    have hle := of_decide_eq_true hab
    rw [childKey_resolved ps p a ka hka, childKey_resolved ps p b kb hkb] at hle
    exact hle

/-- Witness for `c8_children_grouped_ordered` on the concrete model (where
the produced order is `[10, 12, 13, 11]`). -/
theorem c8_children_grouped_ordered_witness :
    (∀ cid ∈ getChildren orderingModel 1, ∃ k, getById orderingModel cid = some k) ∧
    (∀ cid, cid ∈ getChildren orderingModel 1 ↔ cid ∈ kidSet orderingModel orderingParent) ∧
    List.Pairwise (fun a b => ∀ ka kb,
      getById orderingModel a = some ka → getById orderingModel b = some kb →
      specChildRank orderingParent ka < specChildRank orderingParent kb ∨
        (specChildRank orderingParent ka = specChildRank orderingParent kb ∧ a ≤ b))
      (getChildren orderingModel 1) :=
  c8_children_grouped_ordered orderingModel 1 orderingParent (by decide)

/-- Helper: `ClaimExtends` is reflexive. -/
theorem claimExtends_refl (root : Int) (st : ClaimSt) : ClaimExtends root st st := by
  refine ⟨fun _ h => h, fun _ _ => rfl, ?_, fun hk => hk⟩
  intro id hn hv
  exact absurd hv hn

/-- Helper: `ClaimExtends` composes. -/
theorem claimExtends_trans (root : Int) (s1 s2 s3 : ClaimSt)
    (h12 : ClaimExtends root s1 s2) (h23 : ClaimExtends root s2 s3) :
    ClaimExtends root s1 s3 := by
  obtain ⟨m12, st12, f12, k12⟩ := h12
  obtain ⟨m23, st23, f23, k23⟩ := h23
  refine ⟨fun id h => m23 id (m12 id h), ?_, ?_, fun hk => k23 (k12 hk)⟩
  · intro id h
    rw [st23 id (m12 id h), st12 id h]
  · intro id hn hv
    by_cases h2 : id ∈ s2.visited
    · rw [st23 id h2]
      exact f12 id hn h2
    · exact f23 id h2 hv

/-- Helper: the spouse/children claiming loop extends the state per the
first-claim-wins discipline. -/
theorem claimOffer_extends (root : Int) (ids : List Int) :
    ∀ (st : ClaimSt) (q : List Int),
      ClaimExtends root st (claimOffer root ids st q).1 := by
  induction ids with
  | nil => intro st q; exact claimExtends_refl root st
  | cons sid rest ih =>
    intro st q
    unfold claimOffer
    by_cases hv : sid ∈ st.visited
    · rw [if_pos hv]
      exact ih st q
    · rw [if_neg hv]
      refine claimExtends_trans root st
        { visited := sid :: st.visited, owner := (sid, root) :: st.owner } _ ?_ (ih _ _)
      refine ⟨fun id h => List.mem_cons_of_mem _ h, ?_, ?_, ?_⟩
      · intro id h
        have hne : sid ≠ id := fun heq => hv (heq ▸ h)
        simp [lookupOwner, hne]
      · intro id hn hvis
        rcases List.mem_cons.mp hvis with heq | hmem
        · simp [lookupOwner, heq]
        · exact absurd hmem hn
      · intro hk k v hkv
        rcases List.mem_cons.mp hkv with heq | hold
        · injection heq with h1 h2
          rw [h1]
          exact List.mem_cons_self _ _
        · exact List.mem_cons_of_mem _ (hk k v hold)

/-- Helper: the BFS while loop extends the state per the first-claim-wins
discipline, whatever the fuel. -/
theorem claimLoop_extends (ps : List Person) (root : Int) (n : Nat) :
    ∀ (q : List Int) (st : ClaimSt), ClaimExtends root st (claimLoop ps root n q st) := by
  induction n with
  | zero => intro q st; exact claimExtends_refl root st
  | succ n ih =>
    intro q st
    cases q with
    | nil => exact claimExtends_refl root st
    | cons currId rest =>
      cases hcur : getById ps currId with
      | none =>
        have heq : claimLoop ps root (n + 1) (currId :: rest) st =
            claimLoop ps root n rest st := by
          simp only [claimLoop, hcur]
        rw [heq]
        exact ih rest st
      | some curr =>
        have heq : claimLoop ps root (n + 1) (currId :: rest) st =
            claimLoop ps root n
              (claimOffer root (getChildren ps currId)
                (claimOffer root curr.spouses st rest).1
                (claimOffer root curr.spouses st rest).2).2
              (claimOffer root (getChildren ps currId)
                (claimOffer root curr.spouses st rest).1
                (claimOffer root curr.spouses st rest).2).1 := by
          simp only [claimLoop, hcur]
        rw [heq]
        exact claimExtends_trans root _ _ _
          (claimExtends_trans root _ _ _
            (claimOffer_extends root curr.spouses st rest)
            (claimOffer_extends root (getChildren ps currId) _ _))
          (ih _ _)

/-- C5 (confirmed): a claiming run from a canonical root (a root never
already visited — AssignOwnership guards this) visits the root and owns it
by itself; every entity already claimed before the run keeps its previous
ownership lookup unchanged (first claim wins, never re-claimed); every
entity newly reached by this breadth-first traversal has its ownership
entry naming this root; and ownership entries exist only for visited
entities, each with a single well-defined owner lookup. -/
theorem c5_start_claiming (ps : List Person) (rootId : Int) (st : ClaimSt)
    (hroot : rootId ∉ st.visited) :
    (rootId ∈ (startClaiming ps rootId st).visited ∧
      lookupOwner (startClaiming ps rootId st).owner rootId = some rootId) ∧
    (∀ id, id ∈ st.visited → id ∈ (startClaiming ps rootId st).visited) ∧
    (∀ id, id ∈ st.visited →
      lookupOwner (startClaiming ps rootId st).owner id = lookupOwner st.owner id) ∧
    (∀ id, id ∉ st.visited → id ∈ (startClaiming ps rootId st).visited →
      lookupOwner (startClaiming ps rootId st).owner id = some rootId) ∧
    ((∀ k v, (k, v) ∈ st.owner → k ∈ st.visited) →
      ∀ k v, (k, v) ∈ (startClaiming ps rootId st).owner →
        k ∈ (startClaiming ps rootId st).visited) := by
  unfold startClaiming
  rw [if_neg hroot]
  have hseed : ClaimExtends rootId st
      { visited := rootId :: st.visited, owner := (rootId, rootId) :: st.owner } := by
    refine ⟨fun id h => List.mem_cons_of_mem _ h, ?_, ?_, ?_⟩
    · intro id h
      have hne : rootId ≠ id := fun heq => hroot (heq ▸ h)
      simp [lookupOwner, hne]
    · intro id hn hv
      rcases List.mem_cons.mp hv with heq | hmem
      · simp [lookupOwner, heq]
      · exact absurd hmem hn
    · intro hk k v hkv
      rcases List.mem_cons.mp hkv with heq | hold
      · injection heq with h1 h2
        rw [h1]
        exact List.mem_cons_self _ _
      · exact List.mem_cons_of_mem _ (hk k v hold)
  have hloop := claimLoop_extends ps rootId (2 * (claimUniverse ps).length + 2) [rootId]
    { visited := rootId :: st.visited, owner := (rootId, rootId) :: st.owner }
  have hext := claimExtends_trans rootId st _ _ hseed hloop
  obtain ⟨hmono, hstable, hfresh, hkeys⟩ := hext
  have hvis : rootId ∈ (claimLoop ps rootId (2 * (claimUniverse ps).length + 2) [rootId]
      { visited := rootId :: st.visited, owner := (rootId, rootId) :: st.owner }).visited :=
    hloop.1 rootId (List.mem_cons_self _ _)
  exact ⟨⟨hvis, hfresh rootId hroot hvis⟩, hmono, hstable, hfresh, hkeys⟩

/-- Witness for `c5_start_claiming` on the concrete seven-person model. -/
theorem c5_start_claiming_witness :
    ((1 : Int) ∈ (startClaiming orderingModel 1 { visited := [], owner := [] }).visited ∧
      lookupOwner (startClaiming orderingModel 1 { visited := [], owner := [] }).owner 1 =
        some 1) ∧
    (∀ id, id ∈ ({ visited := [], owner := [] } : ClaimSt).visited →
      id ∈ (startClaiming orderingModel 1 { visited := [], owner := [] }).visited) ∧
    (∀ id, id ∈ ({ visited := [], owner := [] } : ClaimSt).visited →
      lookupOwner (startClaiming orderingModel 1 { visited := [], owner := [] }).owner id =
        lookupOwner ({ visited := [], owner := [] } : ClaimSt).owner id) ∧
    (∀ id, id ∉ ({ visited := [], owner := [] } : ClaimSt).visited →
      id ∈ (startClaiming orderingModel 1 { visited := [], owner := [] }).visited →
      lookupOwner (startClaiming orderingModel 1 { visited := [], owner := [] }).owner id =
        some 1) ∧
    ((∀ k v, (k, v) ∈ ({ visited := [], owner := [] } : ClaimSt).owner →
        k ∈ ({ visited := [], owner := [] } : ClaimSt).visited) →
      ∀ k v, (k, v) ∈ (startClaiming orderingModel 1 { visited := [], owner := [] }).owner →
        k ∈ (startClaiming orderingModel 1 { visited := [], owner := [] }).visited) :=
  c5_start_claiming orderingModel 1 { visited := [], owner := [] } (by decide)

/-- Helper: every root recorded as initiating a claiming run is a store
entity at depth 0 passing the canonical-root test. -/
theorem assignFold_initiators (ps l : List Person) (acc : ClaimSt × List Int) :
    ∀ r ∈ (l.foldl (assignStep ps) acc).2, r ∈ acc.2 ∨
      ∃ p ∈ l, p.id = r ∧ p.gen = 0 ∧ isCanonicalRoot p = true := by
  induction l generalizing acc with
  | nil => intro r hr; exact Or.inl hr
  | cons p l ih =>
    intro r hr
    simp only [List.foldl_cons] at hr
    rcases ih (assignStep ps acc p) r hr with hmem | ⟨p', hp', hfacts⟩
    · unfold assignStep at hmem
      by_cases hcond : p.gen = 0 ∧ isCanonicalRoot p = true ∧ p.id ∉ acc.1.visited
      · rw [if_pos hcond] at hmem
        rcases List.mem_append.mp hmem with h | h
        · exact Or.inl h
        · exact Or.inr ⟨p, List.mem_cons_self _ _,
            (List.mem_singleton.mp h).symm, hcond.1, hcond.2.1⟩
      · rw [if_neg hcond] at hmem
        exact Or.inl hmem
    · exact Or.inr ⟨p', List.mem_cons_of_mem _ hp', hfacts⟩

/-- C4, as stated, is false: in `noInitModel`, entities 2 and 3 are
mutually married, both at depth 0, yet neither initiates a cluster — 2
also lists the absent spouse id 1, failing its canonical-root test, and 3
fails against 2.  "Exactly one of A and B initiates" does not hold. -/
theorem c4_no_canonical_pair_counterexample :
    ((getById (calculateGenerations (resetState noInitModel)).ps 2).map
        (fun p => (p.gen, p.spouses)) = some (0, [3, 1])) ∧
    ((getById (calculateGenerations (resetState noInitModel)).ps 3).map
        (fun p => (p.gen, p.spouses)) = some (0, [2])) ∧
    (assignOwnership (calculateGenerations (resetState noInitModel)).ps).2 = [] := by
  decide

/-- C4 (amended): for a mutually married pair of depth-0 entities with
distinct store ids, the larger-identifier spouse never initiates a
cluster; hence at most one of the pair initiates, and any initiator among
the pair is the smaller one.  ("Exactly one" can fail: the smaller spouse
may itself fail the canonical-root test against a third spouse id, or may
already be claimed.) -/
theorem c4_larger_spouse_never_initiates (ps : List Person) (a b : Person)
    (hnd : (ps.map (fun p => p.id)).Nodup)
    (ha : a ∈ ps) (_hb : b ∈ ps)
    (hmarried : b.id ∈ a.spouses ∧ a.id ∈ b.spouses)
    (hgen : a.gen = 0 ∧ b.gen = 0)
    (hlt : b.id < a.id) :
    a.id ∉ (assignOwnership ps).2 := by
  intro hmem
  unfold assignOwnership at hmem
  rcases assignFold_initiators ps ps ({ visited := [], owner := [] }, []) a.id hmem with
    h0 | ⟨p, hp, hpid, _, hcanon⟩
  · cases h0
  · have hpa : p = a := List.inj_on_of_nodup_map hnd hp ha hpid
    subst hpa
    have hle := List.all_eq_true.mp hcanon b.id hmarried.1
    have : p.id ≤ b.id := of_decide_eq_true hle
    omega

/-- Witness for `c4_larger_spouse_never_initiates` on the concrete
married pair (ids 5 and 4). -/
theorem c4_larger_spouse_never_initiates_witness :
    c4pairA.id ∉ (assignOwnership c4pair).2 :=
  c4_larger_spouse_never_initiates c4pair c4pairA c4pairB (by decide)
    (by decide) (by decide) ⟨by decide, by decide⟩ ⟨by decide, by decide⟩ (by decide)

/-- Helper: on the cyclic two-person model, the sizing recursion makes no
progress: whenever neither 1 nor 2 is memoized, the call on either id
exhausts any amount of fuel (the C++ recursion overflows the stack). -/
theorem cyc_sizing_aux (n : Nat) :
    ∀ mets, lookupMetrics mets 1 = none → lookupMetrics mets 2 = none →
      computeSubtreeSize cycGenned cycOwner 1 n 1 mets = none ∧
      computeSubtreeSize cycGenned cycOwner 1 n 2 mets = none := by
  induction n with
  | zero => exact fun mets h1 h2 => ⟨rfl, rfl⟩
  | succ n ih =>
    intro mets h1 h2
    constructor
    · have hob : ownedByOther cycOwner 1 1 = false := by decide
      have hgb : getById cycGenned 1 =
          some { id := 1, name := [], role := [], gender := [], fatherId := 2,
                 motherId := 0, spouses := [], exSpouses := [],
                 x := -10000, y := -10000, gen := 0 } := by decide
      have hgc : getChildren cycGenned 1 = [2] := by decide
      simp [computeSubtreeSize, hob, h1, hgb, hgc, sizeKidsWith, (ih mets h1 h2).2]
    · have hob : ownedByOther cycOwner 1 2 = false := by decide
      have hgb : getById cycGenned 2 =
          some { id := 2, name := [], role := [], gender := [], fatherId := 1,
                 motherId := 0, spouses := [], exSpouses := [],
                 x := -10000, y := -10000, gen := 0 } := by decide
      have hgc : getChildren cycGenned 2 = [1] := by decide
      simp [computeSubtreeSize, hob, h2, hgb, hgc, sizeKidsWith, (ih mets h1 h2).1]

/-- C2 fails on the code: on the cyclic record set `cycModel` (1 and 2
name each other as father), the pipeline's own generation pass and
ownership pass leave both entities at depth 0 owned by root 1, and the
sizing call Recalculate makes — ComputeSubtreeSize(1, 1) from an empty
memo — recurses 1 → 2 → 1 → … without ever reaching the cross-cluster
short-circuit, the memo, or a base case: it returns `none` (runs out) for
every fuel bound, i.e. the C++ recursion never terminates (stack
overflow), contradicting the claim that the layout pass never enters an
unbounded loop or crashes. -/
theorem c2_cyclic_sizing_diverges :
    (lookupOwner cycOwner 1 = some 1 ∧ lookupOwner cycOwner 2 = some 1) ∧
    ∀ n, computeSubtreeSize cycGenned cycOwner 1 n 1 [] = none :=
  ⟨by decide, fun n => (cyc_sizing_aux n [] rfl rfl).1⟩

/-- Helper: a successful lookup returns an entity carrying the looked-up
id. -/
theorem getById_id (ps : List Person) (pid : Int) :
    ∀ q, getById ps pid = some q → q.id = pid := by
  induction ps with
  | nil => intro q h; cases h
  | cons p rest ih =>
    intro q h
    unfold getById at h
    cases hr : getById rest pid with
    | some r =>
      rw [hr] at h
      rw [← Option.some.inj h]
      exact ih r hr
    | none =>
      rw [hr] at h
      by_cases hid : p.id = pid
      · rw [if_pos hid] at h
        rw [← Option.some.inj h]
        exact hid
      · rw [if_neg hid] at h
        cases h

/-- Helper: child edges decrease any rank function that is compatible
with GetChildren, so reachability weakly decreases it. -/
theorem reaches_rank (ps : List Person) (rank : Int → Nat)
    (hrank : ∀ pid k, k ∈ getChildren ps pid → rank k < rank pid) :
    ∀ a b, Reaches ps a b → rank b ≤ rank a := by
  intro a b h
  induction h with
  | refl _ => exact le_refl _
  | step pid k q hk _ ih => exact le_trans ih (le_of_lt (hrank pid k hk))

/-- Helper: stability is reflexive. -/
theorem metricsStable_refl (mets : List (Int × Int × Int)) : MetricsStable mets mets :=
  fun _ _ h => h

/-- Helper: stability composes. -/
theorem metricsStable_trans (a b c : List (Int × Int × Int))
    (h1 : MetricsStable a b) (h2 : MetricsStable b c) : MetricsStable a c :=
  fun k v hv => h2 k v (h1 k v hv)

/-- Helper: an entry consistent in a table remains consistent in any
stable extension — its children-row rereading cannot change, because each
non-cross child already has a (stable) entry and cross children always
contribute 0. -/
theorem consistent_entry_mono (ps : List Person) (owner : List (Int × Int)) (root : Int)
    (mets mets' : List (Int × Int × Int))
    (hcons : MetricsConsistent ps owner root mets)
    (hstab : MetricsStable mets mets')
    (pid w c : Int)
    (hvis : lookupMetrics mets pid = some (w, c)) :
    ∃ p, getById ps pid = some p ∧ c = w / 2 ∧
      w = max (parentsRowWidth p) (kidsRowWidth ps owner root mets' pid) ∧
      ∀ k ∈ getChildren ps pid, ownedByOther owner root k = false →
        ∃ wc, lookupMetrics mets' k = some wc := by
  rcases hcons pid w c hvis with ⟨p, hp, hc, hw, hex⟩
  have hkrw : kidsRowWidth ps owner root mets' pid = kidsRowWidth ps owner root mets pid := by
    unfold kidsRowWidth
    by_cases hk : getChildren ps pid = []
    · rw [if_pos hk, if_pos hk]
    · rw [if_neg hk, if_neg hk]
      have hmap : (getChildren ps pid).map (kidContrib owner root mets') =
          (getChildren ps pid).map (kidContrib owner root mets) := by
        apply List.map_congr_left
        intro k hkmem
        unfold kidContrib
        by_cases hcr : ownedByOther owner root k = true
        · rw [if_pos hcr, if_pos hcr]
        · rw [if_neg hcr, if_neg hcr]
          rcases hex k hkmem (by simpa using hcr) with ⟨wc, hwc⟩
          rw [hwc, hstab k wc hwc]
      rw [hmap]
  refine ⟨p, hp, hc, ?_, ?_⟩
  · rw [hkrw]
    exact hw
  · intro k hkmem hkcr
    rcases hex k hkmem hkcr with ⟨wc, hwc⟩
    exact ⟨wc, hstab k wc hwc⟩

/-- Helper: specification of the children loop, given the specification
of the recursive call it runs: the metrics table grows stably, new keys
are reachable through some child, consistency is preserved, the
accumulated sum is exactly the sum of the children's contributions as
read from the final table, and every non-cross child ends up recorded. -/
theorem sizeKidsWith_spec (ps : List Person) (owner : List (Int × Int)) (root : Int)
    (f : Int → List (Int × Int × Int) → Option ((Int × Int) × List (Int × Int × Int)))
    (hf : ∀ k mets r mets', f k mets = some (r, mets') →
      MetricsConsistent ps owner root mets →
      MetricsStable mets mets' ∧
      (∀ q, lookupMetrics mets q = none → lookupMetrics mets' q ≠ none → Reaches ps k q) ∧
      MetricsConsistent ps owner root mets' ∧
      (ownedByOther owner root k = true → r = (0, 0) ∧ mets' = mets) ∧
      (ownedByOther owner root k = false → lookupMetrics mets' k = some r)) :
    ∀ ks mets s mets', sizeKidsWith f ks mets = some (s, mets') →
      MetricsConsistent ps owner root mets →
      MetricsStable mets mets' ∧
      (∀ q, lookupMetrics mets q = none → lookupMetrics mets' q ≠ none →
        ∃ k ∈ ks, Reaches ps k q) ∧
      MetricsConsistent ps owner root mets' ∧
      s = (ks.map (kidContrib owner root mets')).sum ∧
      (∀ k ∈ ks, ownedByOther owner root k = false →
        ∃ wc, lookupMetrics mets' k = some wc) := by
  intro ks
  induction ks with
  | nil =>
    intro mets s mets' hrun hcons
    unfold sizeKidsWith at hrun
    injection hrun with hrun
    injection hrun with hs hm
    subst hs
    subst hm
    refine ⟨metricsStable_refl mets, ?_, hcons, by simp, ?_⟩
    · intro q hq hq'
      exact absurd hq hq'
    · intro k hk
      cases hk
  | cons k rest ih =>
    intro mets s mets' hrun hcons
    cases hfk : f k mets with
    | none =>
      simp only [sizeKidsWith, hfk] at hrun
      exact Option.noConfusion hrun
    | some v =>
      cases hrest : sizeKidsWith f rest v.2 with
      | none =>
        simp only [sizeKidsWith, hfk, hrest] at hrun
        exact Option.noConfusion hrun
      | some v2 =>
        simp only [sizeKidsWith, hfk, hrest, Option.some.injEq, Prod.mk.injEq] at hrun
        obtain ⟨hs, hm⟩ := hrun
        obtain ⟨stab1, reach1, cons1, cross1, vis1⟩ :=
          hf k mets v.1 v.2 (by rw [hfk]) hcons
        obtain ⟨stab2, reach2, cons2, hsum2, ex2⟩ :=
          ih v.2 v2.1 v2.2 (by rw [hrest]) cons1
        subst hs
        subst hm
        refine ⟨metricsStable_trans _ _ _ stab1 stab2, ?_, cons2, ?_, ?_⟩
        · intro q hq hq'
          cases hq1 : lookupMetrics v.2 q with
          | some w =>
            refine ⟨k, List.mem_cons_self _ _, reach1 q hq ?_⟩
            rw [hq1]
            exact fun h => by cases h
          | none =>
            rcases reach2 q hq1 hq' with ⟨k', hk', hr⟩
            exact ⟨k', List.mem_cons_of_mem _ hk', hr⟩
        · have hcontrib : kidContrib owner root v2.2 k = v.1.1 := by
            unfold kidContrib
            by_cases hcr : ownedByOther owner root k = true
            · rw [if_pos hcr, (cross1 hcr).1]
            · rw [if_neg hcr, stab2 k v.1 (vis1 (by simpa using hcr))]
          simp only [List.map_cons, List.sum_cons]
          rw [hcontrib, hsum2]
        · intro k' hk' hcr'
          rcases List.mem_cons.mp hk' with heq | hmemr
          · subst heq
            exact ⟨v.1, stab2 k' v.1 (vis1 hcr')⟩
          · exact ex2 k' hmemr hcr'

/-- Helper: full specification of one sizing call, for any rank function
witnessing that child edges are acyclic: the table grows stably, new keys
are child-reachable from the argument, consistency is preserved, a
cross-cluster entity yields (0, 0) with no state change, and otherwise
the returned pair is recorded in the table. -/
theorem computeSubtreeSize_spec (ps : List Person) (owner : List (Int × Int)) (root : Int)
    (rank : Int → Nat)
    (hrank : ∀ pid k, k ∈ getChildren ps pid → rank k < rank pid) :
    ∀ n pid mets r mets',
      computeSubtreeSize ps owner root n pid mets = some (r, mets') →
      MetricsConsistent ps owner root mets →
      MetricsStable mets mets' ∧
      (∀ q, lookupMetrics mets q = none → lookupMetrics mets' q ≠ none → Reaches ps pid q) ∧
      MetricsConsistent ps owner root mets' ∧
      (ownedByOther owner root pid = true → r = (0, 0) ∧ mets' = mets) ∧
      (ownedByOther owner root pid = false → lookupMetrics mets' pid = some r) := by
  intro n
  induction n with
  | zero => intro pid mets r mets' hrun _; cases hrun
  | succ n ih =>
    intro pid mets r mets' hrun hcons
    by_cases hcross : ownedByOther owner root pid = true
    · simp only [computeSubtreeSize] at hrun
      rw [if_pos hcross] at hrun
      injection hrun with hrun
      injection hrun with hr hm
      subst hr
      subst hm
      refine ⟨metricsStable_refl mets, ?_, hcons, fun _ => ⟨rfl, rfl⟩, ?_⟩
      · intro q hq hq'
        exact absurd hq hq'
      · intro hfalse
        rw [hcross] at hfalse
        cases hfalse
    · have hcross' : ownedByOther owner root pid = false := by simpa using hcross
      cases hmem : lookupMetrics mets pid with
      | some wc =>
        simp only [computeSubtreeSize, hmem] at hrun
        rw [if_neg hcross] at hrun
        injection hrun with hrun
        injection hrun with hr hm
        subst hr
        subst hm
        refine ⟨metricsStable_refl mets, ?_, hcons, ?_, ?_⟩
        · intro q hq hq'
          exact absurd hq hq'
        · intro htrue
          rw [htrue] at hcross'
          cases hcross'
        · intro _
          exact hmem
      | none =>
        cases hgb : getById ps pid with
        | none =>
          simp only [computeSubtreeSize, hmem, hgb] at hrun
          rw [if_neg hcross] at hrun
          exact Option.noConfusion hrun
        | some p =>
          cases hfold : sizeKidsWith (computeSubtreeSize ps owner root n)
              (getChildren ps pid) mets with
          | none =>
            simp only [computeSubtreeSize, hmem, hgb, hfold] at hrun
            rw [if_neg hcross] at hrun
            exact Option.noConfusion hrun
          | some ks =>
            simp only [computeSubtreeSize, hmem, hgb, hfold] at hrun
            rw [if_neg hcross] at hrun
            injection hrun with hrun
            injection hrun with hr hm
            obtain ⟨stab1, reach1, cons1, hsum, hex⟩ :=
              sizeKidsWith_spec ps owner root (computeSubtreeSize ps owner root n) ih
                (getChildren ps pid) mets ks.1 ks.2 (by rw [hfold]) hcons
            have hpidnone : lookupMetrics ks.2 pid = none := by
              cases hv : lookupMetrics ks.2 pid with
              | none => rfl
              | some v =>
                exfalso
                rcases reach1 pid hmem (by rw [hv]; exact fun h => by cases h) with ⟨k, hk, hrch⟩
                have h1 : rank pid ≤ rank k := reaches_rank ps rank hrank k pid hrch
                have h2 : rank k < rank pid := hrank pid k hk
                omega
            have hpidnotkid : pid ∉ getChildren ps pid := by
              intro hmemk
              exact absurd (hrank pid pid hmemk) (lt_irrefl _)
            have hstep : MetricsStable ks.2
                ((pid, totalWidthOf ps p pid ks.1, totalWidthOf ps p pid ks.1 / 2) :: ks.2) := by
              intro k v hv
              have hkne : pid ≠ k := by
                intro heq
                rw [← heq, hpidnone] at hv
                cases hv
              simpa [lookupMetrics, hkne] using hv
            have hkrw : kidsRowWidth ps owner root
                ((pid, totalWidthOf ps p pid ks.1, totalWidthOf ps p pid ks.1 / 2) :: ks.2) pid =
                kidsWidthOf ps pid ks.1 := by
              unfold kidsRowWidth kidsWidthOf
              by_cases hk : getChildren ps pid = []
              · rw [if_pos hk, if_pos hk, hsum, hk]
                simp
              · rw [if_neg hk, if_neg hk]
                have hmapeq : (getChildren ps pid).map (kidContrib owner root
                    ((pid, totalWidthOf ps p pid ks.1, totalWidthOf ps p pid ks.1 / 2) :: ks.2)) =
                    (getChildren ps pid).map (kidContrib owner root ks.2) := by
                  apply List.map_congr_left
                  intro k hkmem
                  have hkne : pid ≠ k := fun heq => hpidnotkid (heq ▸ hkmem)
                  unfold kidContrib
                  by_cases hcr : ownedByOther owner root k = true
                  · rw [if_pos hcr, if_pos hcr]
                  · rw [if_neg hcr, if_neg hcr]
                    have hlk : lookupMetrics
                        ((pid, totalWidthOf ps p pid ks.1, totalWidthOf ps p pid ks.1 / 2) :: ks.2) k =
                        lookupMetrics ks.2 k := by
                      simp [lookupMetrics, hkne]
                    rw [hlk]
                rw [hmapeq, ← hsum]
            subst hm
            refine ⟨metricsStable_trans _ _ _ stab1 hstep, ?_, ?_, ?_, ?_⟩
            · intro q hq hq'
              by_cases hqpid : q = pid
              · rw [hqpid]
                exact Reaches.refl pid
              · have hne : pid ≠ q := fun heq => hqpid heq.symm
                have hq2 : lookupMetrics
                    ((pid, totalWidthOf ps p pid ks.1, totalWidthOf ps p pid ks.1 / 2) :: ks.2) q =
                    lookupMetrics ks.2 q := by
                  simp [lookupMetrics, hne]
                rw [hq2] at hq'
                rcases reach1 q hq hq' with ⟨k, hk, hrch⟩
                exact Reaches.step pid k q hk hrch
            · intro q w c hv
              by_cases hqpid : q = pid
              · subst hqpid
                have hhead : lookupMetrics
                    ((q, totalWidthOf ps p q ks.1, totalWidthOf ps p q ks.1 / 2) :: ks.2) q =
                    some (totalWidthOf ps p q ks.1, totalWidthOf ps p q ks.1 / 2) := by
                  simp [lookupMetrics]
                rw [hhead] at hv
                injection hv with hv
                refine ⟨p, hgb, ?_, ?_, ?_⟩
                · have hc : c = totalWidthOf ps p q ks.1 / 2 := by
                    have := congrArg Prod.snd hv.symm
                    simpa using this
                  have hw' : w = totalWidthOf ps p q ks.1 := by
                    have := congrArg Prod.fst hv.symm
                    simpa using this
                  rw [hc, hw']
                · have hw' : w = totalWidthOf ps p q ks.1 := by
                    have := congrArg Prod.fst hv.symm
                    simpa using this
                  rw [hw', hkrw]
                  unfold totalWidthOf
                  rfl
                · intro k hkmem hcr
                  rcases hex k hkmem hcr with ⟨wc, hwc⟩
                  exact ⟨wc, hstep k wc hwc⟩
              · have hne : pid ≠ q := fun heq => hqpid heq.symm
                have hq2 : lookupMetrics
                    ((pid, totalWidthOf ps p pid ks.1, totalWidthOf ps p pid ks.1 / 2) :: ks.2) q =
                    lookupMetrics ks.2 q := by
                  simp [lookupMetrics, hne]
                rw [hq2] at hv
                exact consistent_entry_mono ps owner root ks.2 _ cons1 hstep q w c hv
            · intro htrue
              rw [htrue] at hcross'
              cases hcross'
            · intro _
              rw [← hr]
              simp [lookupMetrics]

/-- C7 (confirmed): for a record set whose child graph is acyclic (any
rank function decreasing along GetChildren edges — the spec's stated
premise), a completed sizing pass from the empty memo satisfies the
claim: every call on an entity owned by a different root returns (0, 0)
immediately with no state change, every metric the pass records has
centerOffset = width / 2 and width = max(parents-row width: boxWidth ×
(1 + spouseCount) + spouseGap × spouseCount, children-row width: sum of
the children's recorded subtree widths plus inter-sibling gaps), and the
pass's return value is the recorded metric of its argument. -/
theorem c7_subtree_size_formula (ps : List Person) (owner : List (Int × Int)) (root : Int)
    (rank : Int → Nat)
    (hrank : ∀ pid k, k ∈ getChildren ps pid → rank k < rank pid)
    (n : Nat) (pid0 : Int) (r : Int × Int) (mets' : List (Int × Int × Int))
    (hrun : computeSubtreeSize ps owner root n pid0 [] = some (r, mets')) :
    (∀ m pid mets, ownedByOther owner root pid = true →
      computeSubtreeSize ps owner root (m + 1) pid mets = some ((0, 0), mets)) ∧
    MetricsConsistent ps owner root mets' ∧
    (ownedByOther owner root pid0 = false → lookupMetrics mets' pid0 = some r) := by
  have hempty : MetricsConsistent ps owner root [] := by
    intro pid w c hv
    cases hv
  obtain ⟨_, _, hcons, _, hvis⟩ :=
    computeSubtreeSize_spec ps owner root rank hrank n pid0 [] r mets' hrun hempty
  refine ⟨?_, hcons, hvis⟩
  intro m pid mets hcr
  simp only [computeSubtreeSize]
  rw [if_pos hcr]

/-- Witness for `c7_subtree_size_formula` on the two-person parent/child
model (root 1 owns both; the run records (200, 100) for each). -/
theorem c7_subtree_size_formula_witness :
    (∀ m pid mets, ownedByOther [(1, 1), (2, 1)] 1 pid = true →
      computeSubtreeSize sizingModel [(1, 1), (2, 1)] 1 (m + 1) pid mets =
        some ((0, 0), mets)) ∧
    MetricsConsistent sizingModel [(1, 1), (2, 1)] 1 [(1, 200, 100), (2, 200, 100)] ∧
    (ownedByOther [(1, 1), (2, 1)] 1 1 = false →
      lookupMetrics [(1, 200, 100), (2, 200, 100)] 1 = some (200, 100)) := by
  have hrank : ∀ pid k, k ∈ getChildren sizingModel pid →
      (fun id => if id = 1 then 1 else 0 : Int → Nat) k <
      (fun id => if id = 1 then 1 else 0 : Int → Nat) pid := by
    intro pid k hk
    by_cases h1 : pid = 1
    · subst h1
      have hgc : getChildren sizingModel 1 = [2] := by decide
      rw [hgc] at hk
      rw [List.mem_singleton.mp hk]
      decide
    · by_cases h2 : pid = 2
      · subst h2
        have hgc : getChildren sizingModel 2 = [] := by decide
        rw [hgc] at hk
        cases hk
      · have hnone : getById sizingModel pid = none := by
          cases hq : getById sizingModel pid with
          | none => rfl
          | some q =>
            exfalso
            have hid := getById_id sizingModel pid q hq
            have hmem := getById_mem sizingModel pid q hq
            rcases List.mem_cons.mp hmem with heq | hmem2
            · rw [heq] at hid
              exact h1 (by rw [← hid])
            · rcases List.mem_cons.mp hmem2 with heq | hmem3
              · rw [heq] at hid
                exact h2 (by rw [← hid])
              · cases hmem3
        simp [getChildren, hnone] at hk
  exact c7_subtree_size_formula sizingModel [(1, 1), (2, 1)] 1
    (fun id => if id = 1 then 1 else 0) hrank 10 1 (200, 100)
    [(1, 200, 100), (2, 200, 100)] (by decide)

/-- Helper: zero-extension is reflexive. -/
theorem metsZero_refl (m : List (Int × Int × Int)) : MetsZeroExtends m m :=
  ⟨metricsStable_refl m, fun _ h => Or.inl h⟩

/-- Helper: zero-extension composes. -/
theorem metsZero_trans (a b c : List (Int × Int × Int))
    (h1 : MetsZeroExtends a b) (h2 : MetsZeroExtends b c) : MetsZeroExtends a c := by
  refine ⟨metricsStable_trans a b c h1.1 h2.1, ?_⟩
  intro q hq
  rcases h1.2 q hq with h | h
  · exact h2.2 q h
  · exact Or.inr (h2.1 q (0, 0) h)

/-- Helper: operator[] on a present key returns it without change. -/
theorem metsIndex_eq_some (m : List (Int × Int × Int)) (k : Int) (wc : Int × Int)
    (h : lookupMetrics m k = some wc) : metsIndex m k = (wc, m) := by
  simp [metsIndex, h]

/-- Helper: operator[] on an absent key default-inserts (0, 0). -/
theorem metsIndex_eq_none (m : List (Int × Int × Int)) (k : Int)
    (h : lookupMetrics m k = none) : metsIndex m k = ((0, 0), (k, 0, 0) :: m) := by
  simp [metsIndex, h]

/-- Helper: an operator[] read zero-extends the table. -/
theorem metsIndex_zeroExtends (m : List (Int × Int × Int)) (pid : Int) :
    MetsZeroExtends m (metsIndex m pid).2 := by
  unfold metsIndex
  cases hm : lookupMetrics m pid with
  | some wc => exact metsZero_refl m
  | none =>
    refine ⟨?_, ?_⟩
    · intro k v hv
      have hne : pid ≠ k := by
        intro heq
        rw [← heq, hm] at hv
        cases hv
      simpa [lookupMetrics, hne] using hv
    · intro q hq
      by_cases hqp : pid = q
      · right
        simp [lookupMetrics, hqp]
      · left
        simpa [lookupMetrics, hqp] using hq

/-- Helper: zero-extension preserves every operator[] width read (absent
keys read 0 both before and after, since positioning inserts only (0, 0)
defaults). -/
theorem metsIndex_width_eq (m m' : List (Int × Int × Int))
    (h : MetsZeroExtends m m') (k : Int) :
    (metsIndex m' k).1.1 = (metsIndex m k).1.1 := by
  cases hm : lookupMetrics m k with
  | some wc =>
    rw [metsIndex_eq_some m k wc hm, metsIndex_eq_some m' k wc (h.1 k wc hm)]
  | none =>
    rw [metsIndex_eq_none m k hm]
    rcases h.2 k hm with h' | h'
    · rw [metsIndex_eq_none m' k h']
    · rw [metsIndex_eq_some m' k (0, 0) h']

/-- Helper: zero-extension is preserved by parallel operator[] reads. -/
theorem metsIndex_zeroExtends_mono (m m' : List (Int × Int × Int)) (k : Int)
    (h : MetsZeroExtends m m') :
    MetsZeroExtends (metsIndex m k).2 (metsIndex m' k).2 := by
  cases hm : lookupMetrics m k with
  | some wc =>
    rw [metsIndex_eq_some m k wc hm, metsIndex_eq_some m' k wc (h.1 k wc hm)]
    exact h
  | none =>
    rw [metsIndex_eq_none m k hm]
    rcases h.2 k hm with h' | h'
    · rw [metsIndex_eq_none m' k h']
      refine ⟨?_, ?_⟩
      · intro q v hv
        by_cases hqk : k = q
        · subst hqk
          simp only [lookupMetrics, if_pos rfl] at hv ⊢
          exact hv
        · simp only [lookupMetrics, if_neg hqk] at hv ⊢
          exact h.1 q v hv
      · intro q hq
        by_cases hqk : k = q
        · subst hqk
          simp [lookupMetrics] at hq
        · simp only [lookupMetrics, if_neg hqk] at hq ⊢
          exact h.2 q hq
    · rw [metsIndex_eq_some m' k (0, 0) h']
      refine ⟨?_, ?_⟩
      · intro q v hv
        by_cases hqk : k = q
        · subst hqk
          simp only [lookupMetrics, if_pos rfl] at hv
          rw [← Option.some.inj hv]
          exact h'
        · simp only [lookupMetrics, if_neg hqk] at hv
          exact h.1 q v hv
      · intro q hq
        by_cases hqk : k = q
        · subst hqk
          simp [lookupMetrics] at hq
        · simp only [lookupMetrics, if_neg hqk] at hq
          exact h.2 q hq

/-- Helper: the kidsTotalW loop zero-extends the table. -/
theorem kidsMetsSum_zeroExtends (kids : List Int) :
    ∀ m, MetsZeroExtends m (kidsMetsSum kids m).2 := by
  induction kids with
  | nil => intro m; exact metsZero_refl m
  | cons k rest ih =>
    intro m
    exact metsZero_trans _ _ _ (metsIndex_zeroExtends m k) (ih (metsIndex m k).2)

/-- Helper: the children loop zero-extends the table, provided each child
call does. -/
theorem positionKidsWith_zeroExtends
    (f : Int → Int → Int → PosSt → Option PosSt)
    (hf : ∀ k cx y st st', f k cx y st = some st' → MetsZeroExtends st.mets st'.mets) :
    ∀ kids cx y st st', positionKidsWith f kids cx y st = some st' →
      MetsZeroExtends st.mets st'.mets := by
  intro kids
  induction kids with
  | nil =>
    intro cx y st st' hrun
    injection hrun with hrun
    rw [← hrun]
    exact metsZero_refl st.mets
  | cons k rest ih =>
    intro cx y st st' hrun
    cases hfk : f k cx y st with
    | none =>
      simp only [positionKidsWith, hfk] at hrun
      exact Option.noConfusion hrun
    | some st1 =>
      simp only [positionKidsWith, hfk] at hrun
      have h1 := hf k cx y st st1 hfk
      have h2 := metsIndex_zeroExtends st1.mets k
      have h3 := ih _ _ _ _ hrun
      exact metsZero_trans _ _ _ h1 (metsZero_trans _ _ _ h2 h3)

/-- Helper: one positioning call zero-extends the metrics table: the only
table writes are operator[] default inserts. -/
theorem positionSubtree_zeroExtends (owner : List (Int × Int)) (root : Int) :
    ∀ n pid x y st st', positionSubtree owner root n pid x y st = some st' →
      MetsZeroExtends st.mets st'.mets := by
  intro n
  induction n with
  | zero => intro pid x y st st' hrun; cases hrun
  | succ n ih =>
    intro pid x y st st' hrun
    simp only [positionSubtree] at hrun
    by_cases hcr : ownedByOther owner root pid = true
    · rw [if_pos hcr] at hrun
      injection hrun with hrun
      rw [← hrun]
      exact metsZero_refl st.mets
    · rw [if_neg hcr] at hrun
      by_cases hpl : pid ∈ st.placed
      · rw [if_pos hpl] at hrun
        injection hrun with hrun
        rw [← hrun]
        exact metsZero_refl st.mets
      · rw [if_neg hpl] at hrun
        cases hgb : getById st.ps pid with
        | none =>
          simp only [hgb] at hrun
          exact Option.noConfusion hrun
        | some p =>
          simp only [hgb, positionBody] at hrun
          by_cases hkids : getChildren (rowOf p pid x y st).1 pid = []
          · rw [if_pos hkids] at hrun
            injection hrun with hrun
            rw [← hrun]
            exact metsIndex_zeroExtends st.mets pid
          · rw [if_neg hkids] at hrun
            have hz1 := metsIndex_zeroExtends st.mets pid
            have hz2 := kidsMetsSum_zeroExtends (getChildren (rowOf p pid x y st).1 pid)
              (metsIndex st.mets pid).2
            have hz3 := positionKidsWith_zeroExtends (positionSubtree owner root n)
              (fun k cx y' s s' hcall => ih k cx y' s s' hcall) _ _ _ _ _ hrun
            exact metsZero_trans _ _ _ hz1 (metsZero_trans _ _ _ hz2 hz3)

/-- Helper: zero-extension leaves every children-block span list
unchanged (widths of present entries are stable, absent entries read 0
before and after). -/
theorem childSpans_congr (kids : List Int) :
    ∀ m m' start, MetsZeroExtends m m' →
      childSpans m' start kids = childSpans m start kids := by
  induction kids with
  | nil => intro m m' start _; rfl
  | cons k rest ih =>
    intro m m' start h
    simp only [childSpans]
    rw [metsIndex_width_eq m m' h k,
      ih (metsIndex m k).2 (metsIndex m' k).2 _ (metsIndex_zeroExtends_mono m m' k h)]

/-- Helper: the children loop is exactly the span-driven run: each child
is positioned at its precomputed anchor. -/
theorem positionKidsWith_spansRun
    (f : Int → Int → Int → PosSt → Option PosSt)
    (hf : ∀ k cx y st st', f k cx y st = some st' → MetsZeroExtends st.mets st'.mets) :
    ∀ kids cx y st, positionKidsWith f kids cx y st =
      spansRun f (childSpans st.mets cx kids) y st := by
  intro kids
  induction kids with
  | nil => intro cx y st; rfl
  | cons k rest ih =>
    intro cx y st
    cases hfk : f k cx y st with
    | none => simp only [childSpans, positionKidsWith, spansRun, hfk]
    | some st1 =>
      simp only [childSpans, positionKidsWith, spansRun, hfk]
      have hz := hf k cx y st st1 hfk
      have hw : (metsIndex st1.mets k).1.1 = (metsIndex st.mets k).1.1 :=
        metsIndex_width_eq st.mets st1.mets hz k
      rw [hw]
      rw [ih (cx + (metsIndex st.mets k).1.1 + Config.H_GAP) y
        { st1 with mets := (metsIndex st1.mets k).2 }]
      have hcs : childSpans (metsIndex st1.mets k).2
          (cx + (metsIndex st.mets k).1.1 + Config.H_GAP) rest =
          childSpans (metsIndex st.mets k).2
          (cx + (metsIndex st.mets k).1.1 + Config.H_GAP) rest :=
        childSpans_congr rest _ _ _ (metsIndex_zeroExtends_mono st.mets st1.mets k hz)
      rw [hcs]

/-- C1 (confirmed): in every children block of the positioning pass, the
sibling subtrees are allotted non-overlapping horizontal spans: the
anchors used by the children loop are exactly the span list (second
conjunct, for the actual recursive positioning call at any fuel), and in
that list each child's anchor lies past the previous child's right edge,
exactly one sibling gap further (first conjunct). -/
theorem c1_sibling_spans_nonoverlap (owner : List (Int × Int)) (root : Int) (n : Nat) :
    (∀ mets start kids,
      List.Chain' (fun e e' : Int × Int × Int =>
        e.2.1 + e.2.2 ≤ e'.2.1 ∧ e.2.1 + e.2.2 + Config.H_GAP = e'.2.1)
        (childSpans mets start kids)) ∧
    (∀ kids cx y st,
      positionKidsWith (positionSubtree owner root n) kids cx y st =
        spansRun (positionSubtree owner root n) (childSpans st.mets cx kids) y st) := by
  constructor
  · intro mets start kids
    induction kids generalizing mets start with
    | nil => simp [childSpans]
    | cons k rest ih =>
      simp only [childSpans]
      refine List.chain'_cons'.mpr ⟨?_, ih _ _⟩
      intro b hb
      cases rest with
      | nil => simp [childSpans] at hb
      | cons k' rest' =>
        simp only [childSpans, List.head?_cons, Option.mem_def, Option.some.injEq] at hb
        rw [← hb]
        refine ⟨?_, rfl⟩
        dsimp only
        have : (0 : Int) ≤ Config.H_GAP := by decide
        omega
  · exact positionKidsWith_spansRun (positionSubtree owner root n)
      (fun k cx y st st' h => positionSubtree_zeroExtends owner root n k cx y st st' h)

/-- Helper: `placed.insert` contains the inserted element. -/
theorem placedInsert_self (x : Int) (l : List Int) : x ∈ placedInsert x l := by
  unfold placedInsert
  by_cases h : x ∈ l
  · rw [if_pos h]; exact h
  · rw [if_neg h]; exact List.mem_cons_self x l

/-- Helper: `placed.insert` keeps every existing element. -/
theorem placedInsert_mono (x : Int) (l : List Int) : ∀ z ∈ l, z ∈ placedInsert x l := by
  intro z h
  unfold placedInsert
  by_cases hx : x ∈ l
  · rw [if_pos hx]; exact h
  · rw [if_neg hx]; exact List.mem_cons_of_mem x h

/-- Helper: marking self and spouses placed keeps the old set and contains
the main id. -/
theorem spouseAndSelfPlaced_mono (p : Person) (pid : Int) (placed : List Int) :
    (∀ z ∈ placed, z ∈ spouseAndSelfPlaced p pid placed) ∧
      pid ∈ spouseAndSelfPlaced p pid placed := by
  have hfold : ∀ (sids : List Int) (base : List Int) (z : Int), z ∈ base →
      z ∈ sids.foldl (fun l sid => placedInsert sid l) base := by
    intro sids
    induction sids with
    | nil => intro base z h; exact h
    | cons sid rest ih => intro base z h; exact ih _ _ (placedInsert_mono sid base z h)
  unfold spouseAndSelfPlaced
  constructor
  · intro z h
    exact hfold p.spouses _ z (placedInsert_mono pid placed z h)
  · exact hfold p.spouses _ pid (placedInsert_self pid placed)

/-- Helper: a spouse-row loop only appends to the write log, and every
appended event is a spouse write (`main := false`). -/
theorem placeSpouses_log (y : Int) (sids : List Int) :
    ∀ ps curX log, ∃ ext, (placeSpouses y sids ps curX log).2.2 = log ++ ext ∧
      ext.filter (fun e => e.main) = [] := by
  induction sids with
  | nil =>
    intro ps curX log
    exact ⟨[], by simp [placeSpouses], rfl⟩
  | cons sid rest ih =>
    intro ps curX log
    cases hgb : getById ps sid with
    | some q =>
      rcases ih (setCoords ps sid curX y) (curX + Config.BOX_WIDTH + Config.SPOUSE_GAP)
          (log ++ [{ wid := sid, wx := curX, wy := y, main := false }]) with ⟨ext, hext, hfil⟩
      refine ⟨{ wid := sid, wx := curX, wy := y, main := false } :: ext, ?_, ?_⟩
      · simp only [placeSpouses, hgb]
        rw [hext]
        simp
      · simp [List.filter_cons, hfil]
    | none =>
      rcases ih ps curX log with ⟨ext, hext, hfil⟩
      refine ⟨ext, ?_, hfil⟩
      simp only [placeSpouses, hgb]
      exact hext

/-- Helper: a parents-row block appends to the log exactly one main write,
for the main id, surrounded by spouse writes. -/
theorem parentsRowPlace_log (p : Person) (pid y curX0 : Int) (ps : List Person)
    (log : List WriteEv) :
    ∃ ext1 cx ext2,
      (parentsRowPlace p pid y curX0 ps log).2.2 =
        log ++ ext1 ++ ({ wid := pid, wx := cx, wy := y, main := true } : WriteEv) :: ext2 ∧
      ext1.filter (fun e => e.main) = [] ∧ ext2.filter (fun e => e.main) = [] := by
  rcases placeSpouses_log y (p.spouses.take (p.spouses.length / 2)) ps curX0 log with
    ⟨ext1, hext1, hfil1⟩
  rcases placeSpouses_log y (p.spouses.drop (p.spouses.length / 2))
      (setCoords (placeSpouses y (p.spouses.take (p.spouses.length / 2)) ps curX0 log).1 pid
        (placeSpouses y (p.spouses.take (p.spouses.length / 2)) ps curX0 log).2.1 y)
      ((placeSpouses y (p.spouses.take (p.spouses.length / 2)) ps curX0 log).2.1 +
        Config.BOX_WIDTH + Config.SPOUSE_GAP)
      ((placeSpouses y (p.spouses.take (p.spouses.length / 2)) ps curX0 log).2.2 ++
        [{ wid := pid,
           wx := (placeSpouses y (p.spouses.take (p.spouses.length / 2)) ps curX0 log).2.1,
           wy := y, main := true }]) with ⟨ext2, hext2, hfil2⟩
  refine ⟨ext1, (placeSpouses y (p.spouses.take (p.spouses.length / 2)) ps curX0 log).2.1,
    ext2, ?_, hfil1, hfil2⟩
  unfold parentsRowPlace
  rw [hext2, hext1]
  simp [List.append_assoc]

/-- Helper: every main-write id recorded so far is in `placed` (set form of
the log invariant). -/
theorem mainIds_subset_placed {log : List WriteEv} {placed : List Int}
    (hinv : ∀ e ∈ log, e.main = true → e.wid ∈ placed) :
    ∀ a ∈ (log.filter (fun e => e.main)).map (fun e => e.wid), a ∈ placed := by
  intro a ha
  rcases List.mem_map.mp ha with ⟨e, he, hwid⟩
  have hm := List.mem_filter.mp he
  exact hwid ▸ hinv e hm.1 (by simpa using hm.2)

/-- Helper: the parents-row block appends exactly the main id to the
main-write id sequence. -/
theorem parentsRow_mainIds (p : Person) (pid y curX0 : Int) (ps : List Person)
    (log : List WriteEv) :
    ((parentsRowPlace p pid y curX0 ps log).2.2.filter (fun e => e.main)).map
        (fun e => e.wid) =
      ((log.filter (fun e => e.main)).map (fun e => e.wid)) ++ [pid] := by
  rcases parentsRowPlace_log p pid y curX0 ps log with ⟨ext1, cx, ext2, heq, hfil1, hfil2⟩
  rw [heq]
  simp [List.filter_append, List.filter_cons, hfil1, hfil2]

/-- Helper: transporting the log invariant through a parents-row block. -/
theorem parentsRow_log_inv (p : Person) (pid y curX0 : Int) (ps : List Person)
    (log : List WriteEv) (placed : List Int)
    (hold : ∀ e ∈ log, e.main = true → e.wid ∈ placed) (hpid : pid ∈ placed) :
    ∀ e ∈ (parentsRowPlace p pid y curX0 ps log).2.2, e.main = true → e.wid ∈ placed := by
  rcases parentsRowPlace_log p pid y curX0 ps log with ⟨ext1, cx, ext2, heq, hfil1, hfil2⟩
  rw [heq]
  intro e he hm
  rcases List.mem_append.mp he with h12 | h3
  · rcases List.mem_append.mp h12 with h1 | h2
    · exact hold e h1 hm
    · exact absurd hm (by have := List.filter_eq_nil.mp hfil1 e h2; simpa using this)
  · rcases List.mem_cons.mp h3 with heqe | h4
    · rw [heqe]; exact hpid
    · exact absurd hm (by have := List.filter_eq_nil.mp hfil2 e h4; simpa using this)

/-- Helper: the children loop preserves the placement invariant
(placed-set monotone, main writes placed, main-write ids duplicate-free),
provided each child call does. -/
theorem positionKidsWith_mainInv
    (f : Int → Int → Int → PosSt → Option PosSt)
    (hf : ∀ k cx y st st', f k cx y st = some st' →
      (∀ e ∈ st.log, e.main = true → e.wid ∈ st.placed) →
      ((st.log.filter (fun e => e.main)).map (fun e => e.wid)).Nodup →
      (∀ z, z ∈ st.placed → z ∈ st'.placed) ∧
      (∀ e ∈ st'.log, e.main = true → e.wid ∈ st'.placed) ∧
      ((st'.log.filter (fun e => e.main)).map (fun e => e.wid)).Nodup) :
    ∀ kids cx y st st', positionKidsWith f kids cx y st = some st' →
      (∀ e ∈ st.log, e.main = true → e.wid ∈ st.placed) →
      ((st.log.filter (fun e => e.main)).map (fun e => e.wid)).Nodup →
      (∀ z, z ∈ st.placed → z ∈ st'.placed) ∧
      (∀ e ∈ st'.log, e.main = true → e.wid ∈ st'.placed) ∧
      ((st'.log.filter (fun e => e.main)).map (fun e => e.wid)).Nodup := by
  intro kids
  induction kids with
  | nil =>
    intro cx y st st' hrun hinv hnd
    injection hrun with hrun
    rw [← hrun]
    exact ⟨fun z h => h, hinv, hnd⟩
  | cons k rest ih =>
    intro cx y st st' hrun hinv hnd
    cases hfk : f k cx y st with
    | none =>
      simp only [positionKidsWith, hfk] at hrun
      exact Option.noConfusion hrun
    | some st1 =>
      simp only [positionKidsWith, hfk] at hrun
      obtain ⟨m1, i1, n1⟩ := hf k cx y st st1 hfk hinv hnd
      obtain ⟨m2, i2, n2⟩ := ih _ _ _ _ hrun i1 n1
      exact ⟨fun z h => m2 z (m1 z h), i2, n2⟩

/-- **C9, counterexample.**  The claim says that once an entity is marked
placed and assigned coordinates, no later positioning step changes its
(x, y).  In `multiSpouseModel` the root's two children 4 and 5 are both
married to 3.  The pass (log shown in full, in execution order) places 4
as a main entity and — in that same step — marks 4's spouse 3 placed and
writes 3 at x = 275; the later step for main entity 5 runs its spouse row
unconditionally and rewrites the already-placed 3 at x = 750, which is
also 3's final stored coordinate.  The `placed` guard only stops main
placements; spouse-row writes (`sp->x = …`, main.cpp:432, 450) never
consult `placed`. -/
theorem c9_spouse_overwrite_counterexample :
    msRun = some msFinal ∧
    msFinal.log =
      [{ wid := 1, wx := 400, wy := 50, main := true },
       { wid := 4, wx := 50, wy := 200, main := true },
       { wid := 3, wx := 275, wy := 200, main := false },
       { wid := 5, wx := 525, wy := 200, main := true },
       { wid := 3, wx := 750, wy := 200, main := false }] ∧
    (3 : Int) ∈ msFinal.placed ∧
    (getById msFinal.ps 3).map (fun q => (q.x, q.y)) = some (750, 200) ∧
    (275 : Int) ≠ 750 := by
  decide

/-- **C9** (corrected): only the *main* placement of an entity happens at
most once per pass.  If a positioning call starts from a state where every
logged main write is of a placed entity and the main-write ids are
duplicate-free, then afterwards the placed set has only grown, every
logged main write is of a placed entity, and the main-write ids are still
duplicate-free — so no entity is ever positioned as a main entity twice.
Spouse-row rewrites of placed entities are NOT prevented (see the
counterexample). -/
theorem c9_main_placement_once (owner : List (Int × Int)) (root : Int) :
    ∀ n pid x y st st', positionSubtree owner root n pid x y st = some st' →
      (∀ e ∈ st.log, e.main = true → e.wid ∈ st.placed) →
      ((st.log.filter (fun e => e.main)).map (fun e => e.wid)).Nodup →
      (∀ z, z ∈ st.placed → z ∈ st'.placed) ∧
      (∀ e ∈ st'.log, e.main = true → e.wid ∈ st'.placed) ∧
      ((st'.log.filter (fun e => e.main)).map (fun e => e.wid)).Nodup := by
  intro n
  induction n with
  | zero => intro pid x y st st' hrun _ _; cases hrun
  | succ n ih =>
    intro pid x y st st' hrun hinv hnd
    simp only [positionSubtree] at hrun
    by_cases hcr : ownedByOther owner root pid = true
    · rw [if_pos hcr] at hrun
      injection hrun with hrun
      rw [← hrun]
      exact ⟨fun z h => h, hinv, hnd⟩
    · rw [if_neg hcr] at hrun
      by_cases hpl : pid ∈ st.placed
      · rw [if_pos hpl] at hrun
        injection hrun with hrun
        rw [← hrun]
        exact ⟨fun z h => h, hinv, hnd⟩
      · rw [if_neg hpl] at hrun
        cases hgb : getById st.ps pid with
        | none =>
          simp only [hgb] at hrun
          exact Option.noConfusion hrun
        | some p =>
          simp only [hgb, positionBody] at hrun
          have hmono := spouseAndSelfPlaced_mono p pid st.placed
          have hinvR : ∀ e ∈ (rowOf p pid x y st).2.2, e.main = true →
              e.wid ∈ spouseAndSelfPlaced p pid st.placed := by
            unfold rowOf
            exact parentsRow_log_inv p pid y _ st.ps st.log _
              (fun e he hm => hmono.1 _ (hinv e he hm)) hmono.2
          have hndR : (((rowOf p pid x y st).2.2.filter (fun e => e.main)).map
              (fun e => e.wid)).Nodup := by
            unfold rowOf
            rw [parentsRow_mainIds]
            refine List.Nodup.append hnd (List.nodup_singleton pid) ?_
            intro a ha hb
            rw [List.mem_singleton] at hb
            subst hb
            exact hpl (mainIds_subset_placed hinv a ha)
          by_cases hkids : getChildren (rowOf p pid x y st).1 pid = []
          · rw [if_pos hkids] at hrun
            injection hrun with hrun
            rw [← hrun]
            exact ⟨fun z h => hmono.1 z h, hinvR, hndR⟩
          · rw [if_neg hkids] at hrun
            obtain ⟨m2, i2, n2⟩ := positionKidsWith_mainInv (positionSubtree owner root n)
              (fun k cx y' s s' hcall => ih k cx y' s s' hcall) _ _ _ _ _ hrun hinvR hndR
            exact ⟨fun z h => m2 z (hmono.1 z h), i2, n2⟩

/-- Witness for the corrected C9 theorem: the `multiSpouseModel`
positioning run, started from the pipeline's empty placed set and empty
log. -/
theorem c9_main_placement_once_witness :
    (∀ z, z ∈ ({ ps := msGenned, placed := [], mets := msMets, log := [] } : PosSt).placed →
      z ∈ msFinal.placed) ∧
    (∀ e ∈ msFinal.log, e.main = true → e.wid ∈ msFinal.placed) ∧
    ((msFinal.log.filter (fun e => e.main)).map (fun e => e.wid)).Nodup :=
  c9_main_placement_once msOwner 1 20 1 50 50
    { ps := msGenned, placed := [], mets := msMets, log := [] } msFinal
    (by decide) (by decide) (by decide)

end FamilyTree
